import Mathlib

/-!
# libllm: field scanner, escape codec and chunk sinks

A shallow embedding of `include/curl/llm_dependence.hpp`.

* A `std::string` / `string_view` is a `List Char` (one `Char` per `char`).
* A C++ exception is a value of `Failure`; a function that can throw returns
  `Except Failure _`.
* The user callback `func` is modelled by the list of arguments it has been
  invoked with (`calls`, oldest call first).
* The Windows code-page conversion behind `LLM::encode` is a parameter `conv`.
* The line loop of the chunk sinks need not terminate, so it takes fuel and
  answers `none` when the fuel runs out.
-/

namespace LLM_impl

/-- Everything that can leave a function of the library other than a normal return:
the exception types declared in the headers, `std::out_of_range` thrown by
`std::string::substr`, and a step or read through the end iterator of a vector. -/
inductive Failure where
  | Not_found_error
  | File_format_error
  | Empty_history_error
  | LLM_error (message : List Char)
  | Network_error
  | out_of_range
  | past_the_end
  deriving DecidableEq, Repr

/-- The Windows constant `CP_UTF8`. -/
def CP_UTF8 : Int := 65001

/-- The static `LLM::encode(from, to, source)`: the identity when both code pages agree,
otherwise the Windows conversion `conv`. -/
def encode (conv : Int → Int → List Char → List Char) (src dst : Int) (source : List Char) :
    List Char :=
  if src = dst then source else conv src dst source

/-- The static `LLM::quote`: wrap a text in double quotes. -/
def quote (will_quote : List Char) : List Char :=
  '"' :: will_quote ++ ['"']

/-- The static `LLM::del_quote`: `quoted.substr(1, quoted.length()-2)`.
`substr` throws `std::out_of_range` when the start position 1 lies beyond the size, that is
on the empty text.  On a text of length 1 the count `length()-2` wraps around to a huge
`size_t` and `substr` clamps it to the zero characters that remain, which is what
`take (1 - 2) = take 0` gives as well. -/
def del_quote (quoted : List Char) : Except Failure (List Char) :=
  if quoted.length = 0 then .error .out_of_range
  else .ok ((quoted.drop 1).take (quoted.length - 2))

/-- The call `json.find(pat)` of `std::string`: index of the first occurrence of `pat`,
`none` standing for `npos`. -/
def find : List Char → List Char → Option Nat
  | [], pat => if pat = [] then some 0 else none
  | c :: cs, pat => if pat.isPrefixOf (c :: cs) then some 0 else (find cs pat).map (· + 1)

/-- The static `LLM::escape`; the result is what the loop appends to `res`. -/
def escape : List Char → List Char
  | [] => []
  | ch :: str =>
    if ch = '\n' then '\\' :: 'n' :: escape str
    else if ch = '\\' then '\\' :: '\\' :: escape str
    else if ch = '"' then '\\' :: '"' :: escape str
    else ch :: escape str

/-- The static `LLM::parse`; the result is what the loop appends to `res`.
On a backslash the code evaluates `*++i` without looking at `str.end()`.  Every caller hands
over the characters of a `std::string`, so when the backslash is the last character of the
text the character read is the terminating NUL of that string: it is none of `n`, backslash
and double quote, the `default` branch keeps the backslash and steps back with `--i`, and
the loop ends.  In the `default` branch in general the backslash is kept and `--i` makes the
next round look at the character after it again.  No path of the function throws; the
result is wrapped in `.ok` for the `try` blocks that call it. -/
def parse : List Char → Except Failure (List Char)
  | [] => .ok []
  | c :: cs =>
    if c = '\\' then
      match cs with
      | [] => .ok ['\\']
      | d :: ds =>
        if d = 'n' then (parse ds).map (fun res => '\n' :: res)
        else if d = '\\' then (parse ds).map (fun res => '\\' :: res)
        else if d = '"' then (parse ds).map (fun res => '"' :: res)
        else (parse (d :: ds)).map (fun res => '\\' :: res)
    else (parse cs).map (fun res => c :: res)

/-- The scanning loop of `LLM::read_key`, started just past the quoted key; `inside` is the
flag `in`.  The result is what the loop appends to `result` before it returns, at the first
`,` or `}` outside quotes or at the end of the line. -/
def read_key_loop : List Char → Bool → Bool → List Char
  | [], _, _ => []
  | c :: rest, inside, escape_mode =>
    if c = '\\' then c :: read_key_loop rest inside (!escape_mode)
    else if c = '"' then
      if !escape_mode then c :: read_key_loop rest (!inside) escape_mode
      else c :: read_key_loop rest inside false
    else if c = ' ' ∨ c = ':' then
      if !inside then read_key_loop rest inside escape_mode
      else c :: read_key_loop rest inside escape_mode
    else if c = ',' ∨ c = '}' then
      if !inside then []
      else c :: read_key_loop rest inside escape_mode
    else c :: read_key_loop rest inside false

/-- The static `LLM::read_key(json, key)`. -/
def read_key (json key : List Char) : Except Failure (List Char) :=
  if (find json "\"error\"".toList).isSome ∨ find json "Failed".toList = some 0 then
    .error (.LLM_error json)
  else
    match find json (quote key) with
    | none => .error .Not_found_error
    | some index => .ok (read_key_loop (json.drop (index + (quote key).length)) false false)


/-! ## The chunk sinks -/

/-- The class `Chat_message`: the answer accumulated so far (`Message_func::answer`), the
program code page, and the calls made to the user callback `func`, oldest first. -/
structure Chat_message where
  prog_encode : Int
  answer : List Char
  calls : List (List Char)
  deriving DecidableEq, Repr

/-- The call operator `Chat_message::operator()`: `add_ans(ans); func(std::move(ans))`. -/
def Chat_message.call (self : Chat_message) (ans : List Char) : Chat_message :=
  { self with answer := self.answer ++ ans, calls := self.calls ++ [ans] }

/-- The class `Reasonal_message`: answer and reasoning accumulated so far and the calls made
to the user callback `func(text, reasoning)`, oldest first. -/
structure Reasonal_message where
  prog_encode : Int
  answer : List Char
  reasoning : List Char
  calls : List (List Char × Bool)
  deriving DecidableEq, Repr

/-- The method `Reasonal_message::reason`: `reasoning.append(r); func(std::move(r), true)`. -/
def Reasonal_message.reason (self : Reasonal_message) (r : List Char) : Reasonal_message :=
  { self with reasoning := self.reasoning ++ r, calls := self.calls ++ [(r, true)] }

/-- The call operator `Reasonal_message::operator()`:
`add_ans(ans); func(std::move(ans), false)`. -/
def Reasonal_message.call (self : Reasonal_message) (ans : List Char) : Reasonal_message :=
  { self with answer := self.answer ++ ans, calls := self.calls ++ [(ans, false)] }

/-- How a sink or a transfer stopped: the state of the message object at that point and the
exception that left it, if any. -/
structure Run (σ : Type) where
  state : σ
  thrown : Option Failure
  deriving DecidableEq, Repr

/-- The part of a `std::istringstream` the sinks depend on: the characters not yet read and
`eofbit`.  (`failbit` is only ever set together with or after `eofbit` here, so the stream
is `good()` exactly when `eofbit` is clear.) -/
structure istringstream where
  unread : List Char
  eofbit : Bool
  deriving DecidableEq, Repr

/-- Characters up to the first newline, and what follows that newline (`none` when there is
no newline). -/
def split_line : List Char → List Char × Option (List Char)
  | [] => ([], none)
  | c :: cs => if c = '\n' then ([], some cs) else (c :: (split_line cs).1, (split_line cs).2)

/-- The call `std::getline(str, line)`.  On a stream that is not `good()` the sentry fails
and `line` is left as it was.  Otherwise `line` is erased and filled with the characters up
to the next newline, which is consumed; when the end of the text is reached instead,
`eofbit` is set. -/
def getline (str : istringstream) (line : List Char) : istringstream × List Char :=
  if str.eofbit then (str, line)
  else
    match split_line str.unread with
    | (l, some rest) => (⟨rest, false⟩, l)
    | (l, none) => (⟨[], true⟩, l)

/-- The line loop shared by `Chat::call_back`, `Reasoner::call_back` and
`Fim_base::call_back`: `for (string line; ; std::getline(json_str, line))` with the `try`
block `body`.  An empty line ends the loop at end of file and is skipped otherwise;
`Not_found_error` from the body is caught and ends the loop (`break`); any other exception
leaves the sink.  One unit of fuel is spent per round. -/
def line_loop {σ : Type} (body : List Char → σ → Except Failure σ) :
    Nat → istringstream → List Char → σ → Option (Run σ)
  | 0, _, _, _ => none
  | fuel + 1, json_str, line, ptr =>
    if line = [] then
      if json_str.eofbit then some ⟨ptr, none⟩
      else line_loop body fuel (getline json_str line).1 (getline json_str line).2 ptr
    else
      match body line ptr with
      | .ok ptr2 => line_loop body fuel (getline json_str line).1 (getline json_str line).2 ptr2
      | .error .Not_found_error => some ⟨ptr, none⟩
      | .error e => some ⟨ptr, some e⟩

/-- The `try` block of `Chat::call_back` (`field` is `content`) and of `Fim_base::call_back`
(`field` is `text`). -/
def Chat.on_line (field : List Char) (line : List Char) (ptr : Chat_message) :
    Except Failure Chat_message := do
  let content ← read_key line field
  let content ← del_quote content
  let content ← parse content
  pure (ptr.call content)

/-- The `try` block of `Reasoner::call_back`. -/
def Reasoner.on_line (line : List Char) (ptr : Reasonal_message) :
    Except Failure Reasonal_message := do
  let reasoning_content ← read_key line "reasoning_content".toList
  let content ← read_key line "content".toList
  let reasoning := !(reasoning_content == "null".toList)
  let selected := if reasoning then reasoning_content else content
  let selected ← del_quote selected
  let selected ← parse selected
  pure (if reasoning then ptr.reason selected else ptr.call selected)

/-- The message of the `LLM_error` thrown on a null `contents` pointer. -/
def busy_message : List Char := "服务器繁忙，请稍后再试。".toList

/-- The static `Chat::call_back`; `contents` is the C string handed over by the transport,
`none` for a null pointer. -/
def Chat.call_back (conv : Int → Int → List Char → List Char) (fuel : Nat)
    (contents : Option (List Char)) (ptr : Chat_message) : Option (Run Chat_message) :=
  match contents with
  | none => some ⟨ptr, some (.LLM_error busy_message)⟩
  | some contents =>
    line_loop (Chat.on_line "content".toList) fuel
      ⟨encode conv CP_UTF8 ptr.prog_encode contents, false⟩ [] ptr

/-- The static `Fim_base::call_back`. -/
def Fim_base.call_back (conv : Int → Int → List Char → List Char) (fuel : Nat)
    (contents : Option (List Char)) (ptr : Chat_message) : Option (Run Chat_message) :=
  match contents with
  | none => some ⟨ptr, some (.LLM_error busy_message)⟩
  | some contents =>
    line_loop (Chat.on_line "text".toList) fuel
      ⟨encode conv CP_UTF8 ptr.prog_encode contents, false⟩ [] ptr

/-- The static `Reasoner::call_back`. -/
def Reasoner.call_back (conv : Int → Int → List Char → List Char) (fuel : Nat)
    (contents : Option (List Char)) (ptr : Reasonal_message) : Option (Run Reasonal_message) :=
  match contents with
  | none => some ⟨ptr, some (.LLM_error busy_message)⟩
  | some contents =>
    line_loop Reasoner.on_line fuel
      ⟨encode conv CP_UTF8 ptr.prog_encode contents, false⟩ [] ptr

/-! ## Providers -/

/-- The data members of the class `LLM` (the callback pointer apart, which is passed to
`get` directly).  `history` is the flat vector: question, answer, question, answer, ... -/
structure LLM where
  url : List Char
  model : List Char
  key : List Char
  sys : List Char
  history : List (List Char)
  settings : List (List Char)
  code_encode : Int
  prog_encode : Int
  temperature : Rat
  deriving DecidableEq

/-- The constructor of `LLM`. -/
def LLM.new (url model key : List Char) (code_encode prog_encode : Int) : LLM :=
  { url := url, model := model, key := key, sys := [], history := [], settings := [],
    code_encode := code_encode, prog_encode := prog_encode, temperature := -1 }

/-- The method `LLM::add_history`. -/
def LLM.add_history (self : LLM) (ques ans : List Char) : LLM :=
  { self with history := self.history ++ [ques, ans] }

/-- The class `Reasoner`: an `LLM` with the member `last_reason`. -/
structure Reasoner extends LLM where
  last_reason : List Char
  deriving DecidableEq

/-- The method `Reasoner::remem_reasoning`. -/
def Reasoner.remem_reasoning (self : Reasoner) : List Char :=
  self.last_reason

/-- What `curl_easy_perform` does during one request: the chunks it hands to the write
function, in order (`none` for a null pointer), and the `CURLcode` it returns
(0 is `CURLE_OK`). -/
structure Transfer where
  deliveries : List (Option (List Char))
  code : Nat
  deriving DecidableEq, Repr

/-- The chunk deliveries of `Curl::perform`: the write function is called on each chunk in
turn with the same message object; an exception thrown by it ends the transfer. -/
def deliver {σ : Type} (write_func : Option (List Char) → σ → Option (Run σ)) :
    List (Option (List Char)) → σ → Option (Run σ)
  | [], ptr => some ⟨ptr, none⟩
  | contents :: later, ptr =>
    match write_func contents ptr with
    | none => none
    | some ⟨ptr2, none⟩ => deliver write_func later ptr2
    | some ⟨ptr2, some e⟩ => some ⟨ptr2, some e⟩

/-- The method `Curl::perform` as seen by the provider: it drives the write function and
discards the result of `curl_easy_perform`. -/
def perform {σ : Type} (write_func : Option (List Char) → σ → Option (Run σ))
    (transfer : Transfer) (ptr : σ) : Option (Run σ) :=
  deliver write_func transfer.deliveries ptr

/-- What a call of `get` leaves behind: the provider, the calls made to the user callback
during the call, and the exception that left `get`, if any. -/
structure Outcome (P C : Type) where
  provider : P
  calls : List C
  thrown : Option Failure
  deriving DecidableEq

/-- The method `Chat::get(string&&)` with the write function registered by the constructor
(`Chat::call_back` for a `Chat`, `Fim_base::call_back` for a `Fim_base`).  When the transfer
is left by an exception, `add_history` is not reached. -/
def Chat.get_with
    (write_func : Option (List Char) → Chat_message → Option (Run Chat_message))
    (self : LLM) (transfer : Transfer) (question : List Char) :
    Option (Outcome LLM (List Char)) :=
  match perform write_func transfer ⟨self.prog_encode, [], []⟩ with
  | none => none
  | some ⟨mfunc, some e⟩ => some ⟨self, mfunc.calls, some e⟩
  | some ⟨mfunc, none⟩ => some ⟨self.add_history question mfunc.answer, mfunc.calls, none⟩

/-- The method `Chat::get` of a `Chat` provider. -/
def Chat.get (conv : Int → Int → List Char → List Char) (fuel : Nat)
    (self : LLM) (transfer : Transfer) (question : List Char) :
    Option (Outcome LLM (List Char)) :=
  Chat.get_with (Chat.call_back conv fuel) self transfer question

/-- The method `Chat::get` inherited by a `Fim_base` provider. -/
def Fim_base.get (conv : Int → Int → List Char → List Char) (fuel : Nat)
    (self : LLM) (transfer : Transfer) (question : List Char) :
    Option (Outcome LLM (List Char)) :=
  Chat.get_with (Fim_base.call_back conv fuel) self transfer question

/-- The method `Reasoner::get(string&&)`. -/
def Reasoner.get (conv : Int → Int → List Char → List Char) (fuel : Nat)
    (self : Reasoner) (transfer : Transfer) (question : List Char) :
    Option (Outcome Reasoner (List Char × Bool)) :=
  match perform (Reasoner.call_back conv fuel) transfer ⟨self.prog_encode, [], [], []⟩ with
  | none => none
  | some ⟨mfunc, some e⟩ => some ⟨self, mfunc.calls, some e⟩
  | some ⟨mfunc, none⟩ =>
    some ⟨{ toLLM := self.toLLM.add_history question mfunc.answer,
            last_reason := mfunc.reasoning }, mfunc.calls, none⟩

/-! ## Conversation history -/

/-- The loop of `LLM::get_history(string_view)`:
`for (auto i=history.begin(); i!=history.end(); i+=2) if (*i == ques) return *++i;`
followed by `throw Not_found_error{}`.  On a vector of odd length the last round reads or
steps through `end()`. -/
def get_history_scan : List (List Char) → List Char → Except Failure (List Char)
  | [], _ => .error .Not_found_error
  | [_], _ => .error .past_the_end
  | q :: a :: rest, ques => if q = ques then .ok a else get_history_scan rest ques

/-- The method `LLM::get_history(string_view ques)`. -/
def LLM.get_history (self : LLM) (ques : List Char) : Except Failure (List Char) :=
  if self.history = [] then .error .Empty_history_error
  else if ques = [] then .ok (self.history.getLastD [])
  else get_history_scan self.history ques

/-- The method `LLM::get_history(int index)`; `index` is a 32-bit `int`.
`locat` is `static_cast<unsigned>(index*2+1)`: the `int` arithmetic is taken to wrap around
(two's complement; formally signed overflow is undefined), so `locat` is `index*2+1` modulo
`2^32`; `locat-1` is unsigned arithmetic.  The result is the pair
`(history[locat-1], history[locat])`. -/
def LLM.get_history_index (self : LLM) (index : Int) :
    Except Failure (List Char × List Char) :=
  if self.history = [] then .error .Empty_history_error
  else if ((index * 2 + 1) % 2 ^ 32).toNat < self.history.length then
    match self.history[(((index * 2 + 1) % 2 ^ 32).toNat + 2 ^ 32 - 1) % 2 ^ 32]?,
        self.history[((index * 2 + 1) % 2 ^ 32).toNat]? with
    | some q, some a => .ok (q, a)
    | _, _ => .error .past_the_end
  else .error .Not_found_error

/-- The method `LLM::clear_history`. -/
def LLM.clear_history (self : LLM) : LLM :=
  { self with history := [] }

/-! ## The request body -/

/-- The settings loop of `LLM::request_body`:
`for (auto i=settings.begin(); i!=settings.end(); ++i)` writing a double quote, `*i`, the
text `": `, then `*++i` and a comma.  On a vector of odd length `*++i` reads through
`end()`. -/
def settings_text : List (List Char) → Except Failure (List Char)
  | [] => .ok []
  | [_] => .error .past_the_end
  | k :: v :: rest =>
    (settings_text rest).map (fun r => '"' :: k ++ "\": ".toList ++ v ++ ',' :: r)

/-- The history loop of `LLM::request_body`: per round a user message with `escape(*i)` and
an assistant message with `escape(*++i)`, each followed by a comma. -/
def history_text : List (List Char) → Except Failure (List Char)
  | [] => .ok []
  | [_] => .error .past_the_end
  | q :: a :: rest =>
    (history_text rest).map (fun r =>
      "\x7b\"role\": \"user\", \"content\": \"".toList ++ escape q ++ "\"\x7d,".toList ++
      ("\x7b\"role\": \"assistant\", \"content\": \"".toList ++ escape a ++ "\"\x7d,".toList)
      ++ r)

/-- The method `LLM::request_body`.  `fmt` is the text `ostr << temperature` writes for a
`double`. -/
def LLM.request_body (fmt : Rat → List Char) (self : LLM) (question : List Char) :
    Except Failure (List Char) :=
  match settings_text self.settings, history_text self.history with
  | .error e, _ => .error e
  | .ok _, .error e => .error e
  | .ok settings, .ok turns =>
    .ok ("\x7b".toList ++ "\"model\": \"".toList ++ self.model ++ "\",".toList ++
      (if 0 ≤ self.temperature ∧ self.temperature ≤ 2 then
        "\"temperature\": ".toList ++ fmt self.temperature ++ [','] else []) ++
      settings ++ "\"stream\": true,".toList ++ "\"messages\": [".toList ++
      (if self.sys ≠ [] then
        "\x7b\"role\": \"system\", \"content\": \"".toList ++ escape self.sys
          ++ "\"\x7d,".toList else []) ++
      turns ++
      "\x7b\"role\": \"user\", \"content\": \"".toList ++ escape question ++ "\"\x7d".toList ++
      "]\x7d".toList)

/-! ## The history file -/

/-- The enumeration `Mode`: the section of the history file that is being read. -/
inductive Mode where
  | system
  | user
  | assistant
  | none
  deriving DecidableEq, Repr

/-- The call `line.c_str()` read back as a C string: the characters before the first NUL. -/
def c_str (s : List Char) : List Char :=
  s.takeWhile (fun c => c != Char.ofNat 0)

/-- The statements `if (not text.empty()) text.push_back('\n'); text.append(line);` of
`LLM::read_file`. -/
def append_line (text line : List Char) : List Char :=
  if text = [] then line else text ++ '\n' :: line

/-- The body of the line loop of `LLM::read_file` on one line, up to `line.clear()`.  Every
`throw` comes before the round has changed the provider. -/
def read_file_line (conv : Int → Int → List Char → List Char) (file_encode : Int)
    (mode : Mode) (self : LLM) (line : List Char) : Except Failure (Mode × LLM) :=
  if line = "system".toList then
    if mode = .user then .error .File_format_error
    else .ok (.system, { self with sys := [] })
  else if line = "user".toList then
    if mode = .user then .error .File_format_error
    else .ok (.user, { self with history := self.history ++ [[]] })
  else if line = "assistant".toList then
    if mode ≠ .user then .error .File_format_error
    else .ok (.assistant, { self with history := self.history ++ [[]] })
  else
    match mode with
    | .system =>
      .ok (mode, { self with
        sys := append_line self.sys (encode conv file_encode self.prog_encode (c_str line)) })
    | .none => .error .File_format_error
    | _ =>
      match self.history.getLast? with
      | .none => .error .past_the_end
      | some back =>
        .ok (mode, { self with
          history := self.history.dropLast ++
            [append_line back (encode conv file_encode self.prog_encode (c_str line))] })

/-- The line loop of `LLM::read_file` and the check behind it:
`for (std::getline(f_str, line); not (line.empty() and f_str.eof()); std::getline(f_str,
line))`, the body ending in `line.clear()`, then `if (mode == Mode::user) throw`.  The
arguments are the stream and the line after the last `getline`.  One unit of fuel is spent
per round. -/
def read_file_loop (conv : Int → Int → List Char → List Char) (file_encode : Int) :
    Nat → istringstream → List Char → Mode → LLM → Option (Run LLM)
  | 0, _, _, _, _ => none
  | fuel + 1, f_str, line, mode, self =>
    if line = [] ∧ f_str.eofbit = true then
      if mode = .user then some ⟨self, some .File_format_error⟩ else some ⟨self, none⟩
    else
      match read_file_line conv file_encode mode self line with
      | .error e => some ⟨self, some e⟩
      | .ok (mode2, self2) =>
        read_file_loop conv file_encode fuel (getline f_str []).1 (getline f_str []).2
          mode2 self2

/-- The method `LLM::read_file`; `file` is the content of the file, `none` when it cannot
be opened.  The system prompt and the history are cleared before the first line is read. -/
def LLM.read_file (conv : Int → Int → List Char → List Char) (fuel : Nat) (self : LLM)
    (file : Option (List Char)) (file_encode : Int) : Option (Run LLM) :=
  match file with
  | .none => some ⟨self, some .Not_found_error⟩
  | some content =>
    read_file_loop conv file_encode fuel (getline ⟨content, false⟩ []).1
      (getline ⟨content, false⟩ []).2 .none { self with sys := [], history := [] }

/-! ## Settings -/

/-- The message of the `LLM_error` thrown by `set("stream", value)` for a value other than
`true`. -/
def stream_message : List Char := "目前暂不支持非流式调用".toList

/-- The scan of `LLM::set` over the settings vector,
`for (auto i=settings.begin(); i!=settings.end(); i+=2)`: at the first key equal to
`property` the element after it is overwritten with `value` and the vector is returned
(`some`); `none` when the loop ends without a match.  On a vector of odd length the scan
steps or writes through `end()`. -/
def set_scan : List (List Char) → List Char → List Char →
    Except Failure (Option (List (List Char)))
  | [], _, _ => .ok none
  | [_], _, _ => .error .past_the_end
  | k :: v :: rest, property, value =>
    if k = property then .ok (some (k :: value :: rest))
    else (set_scan rest property value).map (Option.map (fun r => k :: v :: r))

/-- The method `LLM::set(property, value, quote_value)`; `stod` stands for `std::stod`,
which may throw. -/
def LLM.set (stod : List Char → Except Failure Rat) (self : LLM) (property value : List Char)
    (quote_value : Bool) : Except Failure LLM :=
  if property = "system".toList then .ok { self with sys := value }
  else if property = "temperature".toList then
    (stod value).map (fun t => { self with temperature := t })
  else if property = "model".toList then .ok { self with model := value }
  else if property = "url".toList then .ok { self with url := value }
  else if property = "key".toList then .ok { self with key := value }
  else if property = "stream".toList then
    if value ≠ "true".toList then .error (.LLM_error stream_message) else .ok self
  else
    let value := escape value
    let value := if quote_value then quote value else value
    match set_scan self.settings property value with
    | .error e => .error e
    | .ok (some settings) => .ok { self with settings := settings }
    | .ok none => .ok { self with settings := self.settings ++ [property, value] }


/-! ## Vocabulary of the statements -/

/-- The error check at the head of `read_key`, as a property of the line:
the text `"error"` (quotes included) occurs in it, or it starts with `Failed`. -/
def error_marker (json : List Char) : Prop :=
  "\"error\"".toList <:+: json ∨ "Failed".toList <+: json

instance (json : List Char) : Decidable (error_marker json) := by
  unfold error_marker; infer_instance


/-- The wire line made of the single key `content` whose quoted value is the wire text `E`,
that is an opening brace, `"content": "E"` and a closing brace. -/
def content_line (E : List Char) : List Char :=
  "\x7b\"content\": \"".toList ++ E ++ "\"\x7d".toList


/-- The wire line of a dual-channel provider for one token `(text, reasoning)`; it carries
both keys.  A reasoning token gives an opening brace,
`"reasoning_content": "E(text)", "content": null` and a closing brace; an answer token gives
an opening brace, `"reasoning_content": null, "content": "E(text)"` and a closing brace. -/
def dual_line (token : List Char × Bool) : List Char :=
  if token.2 then
    "\x7b\"reasoning_content\": \"".toList ++ escape token.1
      ++ "\", \"content\": null\x7d".toList
  else
    "\x7b\"reasoning_content\": null, \"content\": \"".toList ++ escape token.1
      ++ "\"\x7d".toList

/-- The concatenation, in order, of the texts of the tokens of one channel. -/
def channel_text (reasoning : Bool) (tokens : List (List Char × Bool)) : List Char :=
  ((tokens.filter (fun t => t.2 == reasoning)).map Prod.fst).flatten

/-- The flat history vector that stores the given turns `(question, answer)`. -/
def flat_turns : List (List Char × List Char) → List (List Char)
  | [] => []
  | t :: ts => t.1 :: t.2 :: flat_turns ts

/-- Reference behaviour of `get_history(ques)` as the specification words it, on a history
of turns: `Empty_history_error` when no turn is stored; the answer of the last turn for the
empty query; otherwise the answer of the first turn, scanning front to back, whose question
equals the query, and `Not_found_error` when there is none. -/
def get_history_reference (turns : List (List Char × List Char)) (ques : List Char) :
    Except Failure (List Char) :=
  if turns = [] then .error .Empty_history_error
  else if ques = [] then .ok (turns.getLastD ([], [])).2
  else
    match turns.find? (fun t => t.1 = ques) with
    | some t => .ok t.2
    | none => .error .Not_found_error

/-- The buffers of a `Reasonal_message` hold what the callback has received, per channel. -/
def buffers_match_calls (m : Reasonal_message) : Prop :=
  m.answer = channel_text false m.calls ∧ m.reasoning = channel_text true m.calls

/-- One entry of the `messages` array: an object with the keys `role` and `content`, the
content being the escaped `text`. -/
def message (role text : List Char) : List Char :=
  "\x7b\"role\": \"".toList ++ role ++ "\", \"content\": \"".toList ++ escape text
    ++ "\"\x7d".toList

/-- The entries of the `messages` array for a system prompt, the stored turns and the new
question. -/
def messages (sys : List Char) (turns : List (List Char × List Char))
    (question : List Char) : List (List Char) :=
  (if sys = [] then [] else [message "system".toList sys]) ++
  (turns.map (fun t => [message "user".toList t.1, message "assistant".toList t.2])).flatten
  ++ [message "user".toList question]

/-- The given texts separated by commas. -/
def comma_join : List (List Char) → List Char
  | [] => []
  | [m] => m
  | m :: n :: ms => m ++ ',' :: comma_join (n :: ms)

/-- Reference decoder, as the specification words it: scanning left to right, the
two-character sequences backslash-n, backslash-backslash and backslash-quote are replaced by
a newline, one backslash and a double quote; every other character, a backslash that starts
any other escape sequence included, passes through unchanged. -/
def parse_reference : List Char → List Char
  | [] => []
  | c :: cs =>
    match cs with
    | [] => [c]
    | d :: ds =>
      if c = '\\' ∧ d = 'n' then '\n' :: parse_reference ds
      else if c = '\\' ∧ d = '\\' then '\\' :: parse_reference ds
      else if c = '\\' ∧ d = '"' then '"' :: parse_reference ds
      else c :: parse_reference (d :: ds)

/-- Reference rule for quotes, as the specification words it: a backslash sets a one-shot
escape flag; the flag is consumed by the very next character and is clear afterwards
whatever that character is; a double quote scanned with the flag clear opens or closes the
quotes.  The result is the pair (inside quotes, escape flag) after the character `c`. -/
def one_shot_step (c : Char) (inside escape_flag : Bool) : Bool × Bool :=
  if escape_flag then (inside, false)
  else if c = '\\' then (inside, true)
  else if c = '"' then (!inside, false)
  else (inside, false)

/-- Each character of a text paired with whether it lies outside quotes under the reference
rule `one_shot_step`, the scan starting with the given flags. -/
def mark_outside : List Char → Bool → Bool → List (Char × Bool)
  | [], _, _ => []
  | c :: rest, inside, escape_flag =>
    (c, !inside) ::
      mark_outside rest (one_shot_step c inside escape_flag).1
        (one_shot_step c inside escape_flag).2

/-- The remainder of a line after the first occurrence of the quoted key (empty when the
quoted key does not occur). -/
def after_key (line key : List Char) : List Char :=
  match find line (quote key) with
  | some index => line.drop (index + (quote key).length)
  | none => []

/-- The field `key` of a line has the wire value `value`: the quoted key occurs in the line,
and its first occurrence is followed by spaces and colons only, then by `value`, then by a
comma, a closing brace or the end of the line. -/
def has_value (line key value : List Char) : Prop :=
  quote key <:+: line ∧
  ∃ ws tail : List Char, after_key line key = ws ++ value ++ tail ∧
    (∀ c ∈ ws, c = ' ' ∨ c = ':') ∧
    (tail = [] ∨ ∃ c t, tail = c :: t ∧ (c = ',' ∨ c = '}'))

/-- A marked text with the spaces and colons that lie outside quotes removed. -/
def strip_outside (marked : List (Char × Bool)) : List Char :=
  (marked.filter (fun p => !(p.2 && (p.1 == ' ' || p.1 == ':')))).map Prod.fst

/-- The names `set` handles itself instead of storing them among the settings. -/
def reserved (p : List Char) : Prop :=
  p = "system".toList ∨ p = "temperature".toList ∨ p = "model".toList ∨ p = "url".toList ∨
    p = "key".toList ∨ p = "stream".toList

instance (p : List Char) : Decidable (reserved p) := by
  unfold reserved; infer_instance

/-- The value `set(p, v, q)` stores: `escape(v)`, wrapped in double quotes when `q` holds. -/
def stored_value (v : List Char) (q : Bool) : List Char :=
  if q then quote (escape v) else escape v

/-- The provider after a sequence of calls `set(property, value, quote_value)`, oldest
first; a call that throws leaves the provider as it was. -/
def set_calls (stod : List Char → Except Failure Rat) (self : LLM) :
    List (List Char × List Char × Bool) → LLM
  | [] => self
  | c :: cs =>
    match LLM.set stod self c.1 c.2.1 c.2.2 with
    | .ok s => set_calls stod s cs
    | .error _ => set_calls stod self cs

/-- The names among `ps` that are not reserved, each once, in the order of their first
occurrence, appended to the keys `keys` already present. -/
def first_insertions (keys : List (List Char)) : List (List Char) → List (List Char)
  | [] => keys
  | p :: ps =>
    if reserved p ∨ p ∈ keys then first_insertions keys ps
    else first_insertions (keys ++ [p]) ps

/-- The text made of the given lines, each followed by a newline. -/
def join_lines : List (List Char) → List Char
  | [] => []
  | l :: ls => l ++ '\n' :: join_lines ls

/-- A marker line of the history file. -/
def is_marker (l : List Char) : Prop :=
  l = "system".toList ∨ l = "user".toList ∨ l = "assistant".toList

instance (l : List Char) : Decidable (is_marker l) := by
  unfold is_marker; infer_instance

/-- The block that is open after the line `l`, `m` being the block open before it: a marker
line opens its block, any other line leaves the open block as it is. -/
def next_block (m : Mode) (l : List Char) : Mode :=
  if l = "system".toList then .system
  else if l = "user".toList then .user
  else if l = "assistant".toList then .assistant
  else m

/-- The block opened by the latest marker line of `lines`; `Mode.none` when there is none. -/
def open_block (lines : List (List Char)) : Mode :=
  lines.foldl next_block .none

/-- The line `l` cannot follow while the block `m` is open: a `user` or `system` marker
while the open block is `user`, an `assistant` marker while it is not `user`, or a line that
is no marker before any marker. -/
def violation (m : Mode) (l : List Char) : Prop :=
  ((l = "user".toList ∨ l = "system".toList) ∧ m = .user) ∨
  (l = "assistant".toList ∧ m ≠ .user) ∨
  (¬ is_marker l ∧ m = .none)

/-- The file, as its list of lines, is malformed: some line cannot follow the block that is
open where it stands, or the file ends while the open block is `user`. -/
def malformed (lines : List (List Char)) : Prop :=
  (∃ pre l post, lines = pre ++ l :: post ∧ violation (open_block pre) l) ∨
  open_block lines = .user

/-- The given lines joined by newlines. -/
def newline_join : List (List Char) → List Char
  | [] => []
  | [l] => l
  | l :: m :: ls => l ++ '\n' :: newline_join (m :: ls)

/-- The text of a block: its lines joined by newlines, empty lines at the head of the block
left out. -/
def block_text (ls : List (List Char)) : List Char :=
  newline_join (ls.dropWhile (fun l => decide (l = [])))

/-- The lines before the first marker line, and the blocks of the file: each marker line
opens a block that holds the lines up to the next marker line. -/
def blocks_aux : List (List Char) → List (List Char) × List (Mode × List (List Char))
  | [] => ([], [])
  | l :: ls =>
    if is_marker l then ([], (next_block .none l, (blocks_aux ls).1) :: (blocks_aux ls).2)
    else (l :: (blocks_aux ls).1, (blocks_aux ls).2)

/-- The `user` and `assistant` blocks of the file in file order, each with its text after
the conversion `cv` of its lines. -/
def dialogue_blocks (cv : List Char → List Char) (lines : List (List Char)) :
    List (Mode × List Char) :=
  ((blocks_aux lines).2.filter (fun b => decide (b.1 = .user ∨ b.1 = .assistant))).map
    (fun b => (b.1, block_text (b.2.map cv)))

/-- One turn per `user` block that is followed by an `assistant` block. -/
def pair_up : List (Mode × List Char) → List (List Char × List Char)
  | (.user, q) :: (.assistant, a) :: rest => (q, a) :: pair_up rest
  | _ => []

/-- The history vector after the lines `pend` have been added to the block that is open:
they go to the last element while a `user` or `assistant` block is open, and leave the
history alone otherwise. -/
def absorb (cv : List Char → List Char) (m : Mode) (h : List (List Char))
    (pend : List (List Char)) : List (List Char) :=
  if m = .user ∨ m = .assistant then
    h.dropLast ++ [(pend.map cv).foldl append_line (h.getLastD [])]
  else h

/-- The texts that the `user` and `assistant` blocks `bs` add to the history vector. -/
def ua_texts (cv : List Char → List Char) (bs : List (Mode × List (List Char))) :
    List (List Char) :=
  (bs.filter (fun b => decide (b.1 = .user ∨ b.1 = .assistant))).map
    (fun b => (b.2.map cv).foldl append_line [])

/-- The kinds of the blocks come in pairs: a `user` block, then an `assistant` block. -/
def paired : List Mode → Prop
  | [] => True
  | .user :: .assistant :: rest => paired rest
  | _ => False

/-- The parity of the history vector while a file is read: odd exactly while a `user`
block is open. -/
def parity_ok (mode : Mode) (self : LLM) : Prop :=
  (mode = .user → self.history.length % 2 = 1) ∧
  (mode ≠ .user → self.history.length % 2 = 0)

/-- While a `user` or `assistant` block is open the history holds the text of that block
as its last element. -/
def block_open_ok (mode : Mode) (self : LLM) : Prop :=
  (mode = .user ∨ mode = .assistant) → self.history ≠ []

/-- The rounds of the line loop of `read_file` on the given lines, in order: the mode and
the provider when the lines are used up or a round throws, and the exception of that
round. -/
def scan_lines (conv : Int → Int → List Char → List Char) (file_encode : Int) :
    Mode → LLM → List (List Char) → (Mode × LLM) × Option Failure
  | mode, self, [] => ((mode, self), .none)
  | mode, self, l :: ls =>
    match read_file_line conv file_encode mode self l with
    | .error e => ((mode, self), some e)
    | .ok (mode2, self2) => scan_lines conv file_encode mode2 self2 ls

/-- The end of `read_file` after the rounds `scan_lines`: the exception of a round leaves the
function; otherwise a file that ends in a `user` block is refused. -/
def finish_read (r : (Mode × LLM) × Option Failure) : Run LLM :=
  match r.2 with
  | some e => ⟨r.1.2, some e⟩
  | .none => if r.1.1 = .user then ⟨r.1.2, some .File_format_error⟩ else ⟨r.1.2, .none⟩

/-- The lines of a file whose content is `join_lines lines ++ last`: the newline-terminated
lines and, when it is not empty, the unterminated last one. -/
def file_lines (lines : List (List Char)) (last : List Char) : List (List Char) :=
  lines ++ (if last = [] then [] else [last])

/-- One round of the line loop on `line`: an empty line is skipped, any other goes through
the `try` block. -/
def visit {σ : Type} (body : List Char → σ → Except Failure σ) (ptr : σ) (line : List Char) :
    Except Failure σ :=
  if line = [] then .ok ptr else body line ptr

/-- The rounds of the line loop on the given lines, in order, as long as none throws. -/
def visit_all {σ : Type} (body : List Char → σ → Except Failure σ) :
    σ → List (List Char) → Except Failure σ
  | ptr, [] => .ok ptr
  | ptr, l :: ls =>
    match visit body ptr l with
    | .ok ptr2 => visit_all body ptr2 ls
    | .error e => .error e

/-! # Properties -/

/-! ## The escape codec -/

theorem parse_cons_of_ne (c : Char) (cs : List Char) (h : c ≠ '\\') :
    parse (c :: cs) = (parse cs).map (fun res => c :: res) := by
  cases cs <;> simp [parse, h]

/-- C4: round trip of the escape codec: for every text `s`, `parse (escape s)` returns `s`. -/
theorem parse_escape (s : List Char) : parse (escape s) = .ok s := by
  induction s with
  | nil => rfl
  | cons c cs ih =>
    by_cases h1 : c = '\n'
    · subst h1
      simp [escape, parse, ih, Except.map]
    · by_cases h2 : c = '\\'
      · subst h2
        simp [escape, parse, ih, Except.map]
      · by_cases h3 : c = '"'
        · subst h3
          simp [escape, parse, ih, Except.map]
        · simp [escape, parse_cons_of_ne, ih, Except.map, h1, h2, h3]

/-! ## Substring search -/

theorem find_eq_none_iff (json pat : List Char) : find json pat = none ↔ ¬ pat <:+: json := by
  induction json with
  | nil => by_cases h : pat = [] <;> simp [find, h]
  | cons c cs ih =>
    by_cases h : pat <+: c :: cs
    · simp [find, h, List.infix_cons_iff]
    · simp [find, h, List.infix_cons_iff, ih]

theorem find_isSome_iff (json pat : List Char) : (find json pat).isSome ↔ pat <:+: json := by
  rw [← not_iff_not, ← find_eq_none_iff]
  cases find json pat <;> simp

theorem find_eq_zero_iff (json pat : List Char) : find json pat = some 0 ↔ pat <+: json := by
  cases json with
  | nil => by_cases h : pat = [] <;> simp [find, h]
  | cons c cs =>
    by_cases h : pat <+: c :: cs
    · simp [find, h]
    · simp [find, h]

theorem read_key_of_error_marker (json key : List Char) (h : error_marker json) :
    read_key json key = .error (.LLM_error json) := by
  have h2 : (find json "\"error\"".toList).isSome ∨ find json "Failed".toList = some 0 := by
    rw [find_isSome_iff, find_eq_zero_iff]; exact h
  simp only [read_key, if_pos h2]

theorem read_key_of_no_marker (json key : List Char) (h : ¬ error_marker json) :
    read_key json key =
      match find json (quote key) with
      | none => .error .Not_found_error
      | some index =>
        .ok (read_key_loop (json.drop (index + (quote key).length)) false false) := by
  have h2 : ¬ ((find json "\"error\"".toList).isSome ∨ find json "Failed".toList = some 0) := by
    rw [find_isSome_iff, find_eq_zero_iff]; exact h
  simp only [read_key, if_neg h2]

/-! ## The field scanner -/

theorem read_key_loop_plain (X rest : List Char) (hX : ∀ c ∈ X, c ≠ '\\' ∧ c ≠ '"') :
    read_key_loop (X ++ rest) true false = X ++ read_key_loop rest true false := by
  induction X with
  | nil => rfl
  | cons c cs ih =>
    have hc := hX c (List.mem_cons_self c cs)
    have ih2 := ih (fun d hd => hX d (List.mem_cons_of_mem c hd))
    by_cases h1 : c = ' ' ∨ c = ':'
    · simp [read_key_loop, hc.1, hc.2, h1, ih2]
    · by_cases h2 : c = ',' ∨ c = '}'
      · simp [read_key_loop, hc.1, hc.2, h1, h2, ih2]
      · simp [read_key_loop, hc.1, hc.2, h1, h2, ih2]

theorem read_key_loop_escape (s rest : List Char) :
    read_key_loop (escape s ++ rest) true false = escape s ++ read_key_loop rest true false := by
  induction s with
  | nil => rfl
  | cons c cs ih =>
    by_cases h1 : c = '\n'
    · subst h1
      simp [escape, read_key_loop, ih]
    · by_cases h2 : c = '\\'
      · subst h2
        simp [escape, read_key_loop, ih]
      · by_cases h3 : c = '"'
        · subst h3
          simp [escape, read_key_loop, ih]
        · by_cases h4 : c = ' ' ∨ c = ':'
          · simp [escape, read_key_loop, h1, h2, h3, h4, ih]
          · by_cases h5 : c = ',' ∨ c = '}'
            · simp [escape, read_key_loop, h1, h2, h3, h4, h5, ih]
            · simp [escape, read_key_loop, h1, h2, h3, h4, h5, ih]

theorem read_key_loop_skip (ws rest : List Char) (hws : ∀ c ∈ ws, c = ' ' ∨ c = ':') :
    read_key_loop (ws ++ rest) false false = read_key_loop rest false false := by
  induction ws with
  | nil => rfl
  | cons c cs ih =>
    have hc := hws c (List.mem_cons_self c cs)
    have ih2 := ih (fun d hd => hws d (List.mem_cons_of_mem c hd))
    rcases hc with hc | hc <;> subst hc <;> simp [read_key_loop, ih2]

theorem read_key_loop_stop (c : Char) (rest : List Char) (hc : c = ',' ∨ c = '}') :
    read_key_loop (c :: rest) false false = [] := by
  rcases hc with hc | hc <;> subst hc <;> simp [read_key_loop]

theorem del_quote_quote (x : List Char) : del_quote (quote x) = .ok x := by
  simp [del_quote, quote]

theorem drop_append_length_add (pre k rest : List Char) :
    (pre ++ k ++ rest).drop (pre.length + k.length) = rest := by
  rw [← List.length_append, List.drop_left]

theorem find_content_head (rest : List Char) :
    find ("\x7b\"content\"".toList ++ rest) (quote "content".toList) = some 1 := by
  simp [find, quote]

/-- C6: `read_key` returns the value as verbatim wire text, still quote-delimited and still
escaped: on the line made of an opening brace, `"content": "E(s)"` and a tail `c :: t` with
`c` a comma or a closing brace, a line that does not contain the text `"error"`, the call
`read_key line "content"` returns `E(s)` between its two double quotes, whatever characters
(spaces, colons, commas, braces) the value holds. -/
theorem read_key_verbatim (s t : List Char) (c : Char) (hc : c = ',' ∨ c = '}')
    (herr : ¬ "\"error\"".toList <:+:
      ("\x7b\"content\": \"".toList ++ escape s ++ '"' :: c :: t)) :
    read_key ("\x7b\"content\": \"".toList ++ escape s ++ '"' :: c :: t) "content".toList
      = .ok ('"' :: escape s ++ ['"']) := by
  have hm : ¬ error_marker ("\x7b\"content\": \"".toList ++ escape s ++ '"' :: c :: t) := by
    intro h
    rcases h with h | h
    · exact herr h
    · simp at h
  rw [read_key_of_no_marker _ _ hm]
  have hf := find_content_head (": \"".toList ++ escape s ++ '"' :: c :: t)
  simp only [String.toList, List.append_assoc, List.cons_append, List.nil_append] at hf ⊢
  rw [hf]
  rcases hc with hc | hc <;> subst hc <;> simp [quote, read_key_loop, read_key_loop_escape]

theorem read_key_verbatim_witness :
    ¬ "\"error\"".toList <:+:
        ("\x7b\"content\": \"".toList ++ escape "a, b\x7d: \"c\"\n".toList
          ++ '"' :: ',' :: " \"x\": 1\x7d".toList) ∧
    read_key ("\x7b\"content\": \"".toList ++ escape "a, b\x7d: \"c\"\n".toList
          ++ '"' :: ',' :: " \"x\": 1\x7d".toList) "content".toList
      = .ok ('"' :: escape "a, b\x7d: \"c\"\n".toList ++ ['"']) :=
  ⟨by decide, read_key_verbatim _ _ _ (Or.inl rfl) (by decide)⟩

/-- C5, as stated, fails: on the line made of an opening brace, `"content": "X"` and a
closing brace, `read_key` does not return `X` but `X` between its two double quotes. -/
theorem read_key_content_not_bare :
    read_key (content_line "X".toList) "content".toList = .ok "\"X\"".toList ∧
    read_key (content_line "X".toList) "content".toList ≠ .ok "X".toList := by
  have h : read_key (content_line "X".toList) "content".toList = .ok "\"X\"".toList := by
    rfl
  refine ⟨h, ?_⟩
  rw [h]
  intro h2
  cases h2

/-- C5, amended: for every text `X` without backslash and double quote and every line
`pre ++ "content": "X" ++ ws ++ tail` that passes the error check, in which the first
occurrence of the quoted key is the one shown, `ws` consists of spaces and colons and `tail`
is empty or starts with a comma or a closing brace: `read_key line "content"` finds the field
and returns `X` still between its double quotes, and `del_quote` of that is exactly `X`. -/
theorem read_key_content_plain (pre X ws tail : List Char)
    (hX : ∀ c ∈ X, c ≠ '\\' ∧ c ≠ '"')
    (hws : ∀ c ∈ ws, c = ' ' ∨ c = ':')
    (htail : tail = [] ∨ ∃ c t, tail = c :: t ∧ (c = ',' ∨ c = '}'))
    (hfirst : find (pre ++ quote "content".toList ++ (": \"".toList ++ X ++ '"' :: (ws ++ tail)))
      (quote "content".toList) = some pre.length)
    (herr : ¬ error_marker
      (pre ++ quote "content".toList ++ (": \"".toList ++ X ++ '"' :: (ws ++ tail)))) :
    read_key (pre ++ quote "content".toList ++ (": \"".toList ++ X ++ '"' :: (ws ++ tail)))
        "content".toList = .ok ('"' :: X ++ ['"']) ∧
    del_quote ('"' :: X ++ ['"']) = .ok X := by
  refine ⟨?_, del_quote_quote X⟩
  rw [read_key_of_no_marker _ _ herr, hfirst]
  simp only [drop_append_length_add]
  have hend : read_key_loop (ws ++ tail) false false = [] := by
    rw [read_key_loop_skip ws tail hws]
    rcases htail with h | ⟨c, t, h, hc⟩
    · subst h; rfl
    · subst h; exact read_key_loop_stop c t hc
  simp [read_key_loop, read_key_loop_plain X _ hX, hend]

theorem read_key_content_plain_witness :
    read_key ("\x7b\"role\": \"assistant\", ".toList ++ quote "content".toList ++
        (": \"".toList ++ "Hello, world: \x7bok\x7d".toList ++ '"' :: (" ".toList ++ "\x7d".toList)))
        "content".toList = .ok ('"' :: "Hello, world: \x7bok\x7d".toList ++ ['"']) ∧
    del_quote ('"' :: "Hello, world: \x7bok\x7d".toList ++ ['"']) = .ok "Hello, world: \x7bok\x7d".toList :=
  read_key_content_plain _ _ _ _ (by decide) (by decide)
    (Or.inr ⟨'}', [], rfl, Or.inr rfl⟩) (by decide) (by decide)

/-- C7: a line that does not contain the field name never yields a value; and on every line
that passes the error check `read_key` throws `Not_found_error` exactly when the quoted name
does not occur in the line, in particular whenever the bare name does not occur. -/
theorem read_key_not_found_iff (json name : List Char) :
    (¬ name <:+: json → ∀ v, read_key json name ≠ .ok v) ∧
    (¬ error_marker json →
      (read_key json name = .error .Not_found_error ↔ ¬ quote name <:+: json)) ∧
    (¬ error_marker json → ¬ name <:+: json →
      read_key json name = .error .Not_found_error) := by
  have hq : quote name <:+: json → name <:+: json := by
    rintro ⟨a, b, h⟩
    exact ⟨a ++ ['"'], ['"'] ++ b, by simp [← h, quote]⟩
  have hiff : ¬ error_marker json →
      (read_key json name = .error .Not_found_error ↔ ¬ quote name <:+: json) := by
    intro hm
    rw [read_key_of_no_marker _ _ hm, ← find_eq_none_iff]
    cases find json (quote name) <;> simp
  refine ⟨?_, hiff, fun hm hn => (hiff hm).2 (fun h => hn (hq h))⟩
  intro hn v
  by_cases hm : error_marker json
  · rw [read_key_of_error_marker _ _ hm]
    intro h; cases h
  · rw [(hiff hm).2 (fun h => hn (hq h))]
    intro h; cases h

theorem read_key_not_found_iff_witness :
    ¬ error_marker "\x7b\"role\": \"assistant\"\x7d".toList ∧
    ¬ "content".toList <:+: "\x7b\"role\": \"assistant\"\x7d".toList ∧
    read_key "\x7b\"role\": \"assistant\"\x7d".toList "content".toList
      = .error .Not_found_error :=
  ⟨by decide, by decide,
    (read_key_not_found_iff "\x7b\"role\": \"assistant\"\x7d".toList "content".toList).2.2
      (by decide) (by decide)⟩

/-- C8 fails on the code: the well-formed answer line carrying the answer text `error`
contains the text `"error"` as its quoted value, so `read_key` reports the line as
`LLM_error` instead of yielding the token. -/
theorem read_key_answer_error :
    read_key (content_line (escape "error".toList)) "content".toList
      = .error (.LLM_error "\x7b\"content\": \"error\"\x7d".toList) := by
  rfl

/-! ## The line loop -/

theorem split_line_append (l rest : List Char) (h : '\n' ∉ l) :
    split_line (l ++ '\n' :: rest) = (l, some rest) := by
  induction l with
  | nil => simp [split_line]
  | cons c cs ih =>
    have hc : c ≠ '\n' := fun hc => h (hc ▸ List.mem_cons_self c cs)
    have ih2 := ih (fun hm => h (List.mem_cons_of_mem c hm))
    simp [split_line, hc, ih2]

theorem split_line_of_not_mem (l : List Char) (h : '\n' ∉ l) : split_line l = (l, none) := by
  induction l with
  | nil => simp [split_line]
  | cons c cs ih =>
    have hc : c ≠ '\n' := fun hc => h (hc ▸ List.mem_cons_self c cs)
    have ih2 := ih (fun hm => h (List.mem_cons_of_mem c hm))
    simp [split_line, hc, ih2]

theorem getline_line (l rest cur : List Char) (h : '\n' ∉ l) :
    getline ⟨l ++ '\n' :: rest, false⟩ cur = (⟨rest, false⟩, l) := by
  simp [getline, split_line_append l rest h]

theorem getline_last (l cur : List Char) (h : '\n' ∉ l) :
    getline ⟨l, false⟩ cur = (⟨[], true⟩, l) := by
  simp [getline, split_line_of_not_mem l h]

theorem line_loop_step {σ : Type} (body : List Char → σ → Except Failure σ) (fuel : Nat)
    (str : istringstream) (cur : List Char) (m m1 : σ) (heof : str.eofbit = false)
    (h : visit body m cur = .ok m1) :
    line_loop body (fuel + 1) str cur m
      = line_loop body fuel (getline str cur).1 (getline str cur).2 m1 := by
  by_cases hc : cur = []
  · simp only [visit, if_pos hc, Except.ok.injEq] at h
    subst h
    simp [line_loop, hc, heof]
  · simp only [visit, if_neg hc] at h
    simp [line_loop, hc, h]

theorem line_loop_throw {σ : Type} (body : List Char → σ → Except Failure σ) (fuel : Nat)
    (str : istringstream) (bad : List Char) (m : σ) (e : Failure) (hne : bad ≠ [])
    (h : body bad m = .error e) :
    line_loop body (fuel + 1) str bad m
      = some ⟨m, if e = Failure.Not_found_error then none else some e⟩ := by
  cases e <;> simp [line_loop, hne, h]

theorem visit_all_cons {σ : Type} (body : List Char → σ → Except Failure σ) (m m2 : σ)
    (l : List Char) (ls : List (List Char)) (h : visit_all body m (l :: ls) = .ok m2) :
    ∃ m1, visit body m l = .ok m1 ∧ visit_all body m1 ls = .ok m2 := by
  simp only [visit_all] at h
  cases hv : visit body m l with
  | ok m1 => rw [hv] at h; exact ⟨m1, rfl, h⟩
  | error e => rw [hv] at h; cases h

/-- A chunk of newline-terminated lines that all pass their round is read to its end. -/
theorem line_loop_finish {σ : Type} (body : List Char → σ → Except Failure σ)
    (pre : List (List Char)) :
    ∀ (cur : List Char) (m m1 m2 : σ) (fuel : Nat), (∀ l ∈ pre, '\n' ∉ l) →
      visit body m cur = .ok m1 → visit_all body m1 pre = .ok m2 → pre.length + 2 ≤ fuel →
      line_loop body fuel ⟨join_lines pre, false⟩ cur m = some ⟨m2, none⟩ := by
  induction pre with
  | nil =>
    intro cur m m1 m2 fuel _ hcur hrun hfuel
    obtain ⟨f, rfl⟩ : ∃ f, fuel = f + 2 := ⟨fuel - 2, by simp at hfuel; omega⟩
    simp only [visit_all, Except.ok.injEq] at hrun
    subst hrun
    rw [line_loop_step body (f + 1) _ cur m m1 rfl hcur]
    simp [join_lines, getline, split_line, line_loop]
  | cons l ls ih =>
    intro cur m m1 m2 fuel hpre hcur hrun hfuel
    obtain ⟨f, rfl⟩ : ∃ f, fuel = f + 1 := ⟨fuel - 1, by simp at hfuel; omega⟩
    obtain ⟨m3, hl, hls⟩ := visit_all_cons body m1 m2 l ls hrun
    rw [line_loop_step body f _ cur m m1 rfl hcur]
    simp only [join_lines, getline_line l _ cur (hpre l (List.mem_cons_self l ls))]
    exact ih l m1 m3 m2 f (fun x hx => hpre x (List.mem_cons_of_mem l hx)) hl hls
      (by simp at hfuel; omega)

/-- A chunk in which newline-terminated lines that pass their round are followed by a
non-empty line `bad` on which the `try` block throws `e`: the loop stops at `bad`, whatever
follows it in the chunk. -/
theorem line_loop_stop {σ : Type} (body : List Char → σ → Except Failure σ)
    (pre : List (List Char)) (bad r : List Char) (e : Failure)
    (hbad : '\n' ∉ bad) (hne : bad ≠ []) (hr : r = [] ∨ ∃ rest, r = '\n' :: rest) :
    ∀ (cur : List Char) (m m1 m2 : σ) (fuel : Nat), (∀ l ∈ pre, '\n' ∉ l) →
      visit body m cur = .ok m1 → visit_all body m1 pre = .ok m2 →
      body bad m2 = .error e → pre.length + 2 ≤ fuel →
      line_loop body fuel ⟨join_lines pre ++ (bad ++ r), false⟩ cur m
        = some ⟨m2, if e = Failure.Not_found_error then none else some e⟩ := by
  induction pre with
  | nil =>
    intro cur m m1 m2 fuel _ hcur hrun he hfuel
    obtain ⟨f, rfl⟩ : ∃ f, fuel = f + 2 := ⟨fuel - 2, by simp at hfuel; omega⟩
    simp only [visit_all, Except.ok.injEq] at hrun
    subst hrun
    rw [line_loop_step body (f + 1) _ cur m m1 rfl hcur]
    rcases hr with hr | ⟨rest, hr⟩
    · subst hr
      simp only [join_lines, List.nil_append, List.append_nil, getline_last bad cur hbad]
      exact line_loop_throw body f _ bad m1 e hne he
    · subst hr
      simp only [join_lines, List.nil_append, getline_line bad rest cur hbad]
      exact line_loop_throw body f _ bad m1 e hne he
  | cons l ls ih =>
    intro cur m m1 m2 fuel hpre hcur hrun he hfuel
    obtain ⟨f, rfl⟩ : ∃ f, fuel = f + 1 := ⟨fuel - 1, by simp at hfuel; omega⟩
    obtain ⟨m3, hl, hls⟩ := visit_all_cons body m1 m2 l ls hrun
    rw [line_loop_step body f _ cur m m1 rfl hcur]
    simp only [join_lines, List.cons_append, List.append_assoc,
      getline_line l _ cur (hpre l (List.mem_cons_self l ls))]
    exact ih l m1 m3 m2 f (fun x hx => hpre x (List.mem_cons_of_mem l hx)) hl hls he
      (by simp at hfuel; omega)

/-! ## Token lines of a `Chat` provider -/

theorem parse_escaped_append (s rest : List Char) :
    parse (escape s ++ rest) = (parse rest).map (fun res => s ++ res) := by
  induction s with
  | nil => cases hp : parse rest <;> simp [escape, Except.map, hp]
  | cons c cs ih =>
    by_cases h1 : c = '\n'
    · subst h1
      cases hp : parse rest <;> simp [escape, parse, ih, hp, Except.map]
    · by_cases h2 : c = '\\'
      · subst h2
        cases hp : parse rest <;> simp [escape, parse, ih, hp, Except.map]
      · by_cases h3 : c = '"'
        · subst h3
          cases hp : parse rest <;> simp [escape, parse, ih, hp, Except.map]
        · cases hp : parse rest <;>
            simp [escape, parse_cons_of_ne, ih, hp, Except.map, h1, h2, h3]

theorem newline_not_mem_escape (s : List Char) : '\n' ∉ escape s := by
  induction s with
  | nil => simp [escape]
  | cons c cs ih =>
    by_cases h1 : c = '\n'
    · subst h1; simp [escape, ih]
    · by_cases h2 : c = '\\'
      · subst h2; simp [escape, ih]
      · by_cases h3 : c = '"'
        · subst h3; simp [escape, ih]
        · simp [escape, h1, h2, h3, ih, Ne.symm h1]

theorem newline_not_mem_content_line (x : List Char) : '\n' ∉ content_line (escape x) := by
  simp [content_line, newline_not_mem_escape]

theorem read_key_content_line (x : List Char) (h : ¬ error_marker (content_line (escape x))) :
    read_key (content_line (escape x)) "content".toList = .ok (quote (escape x)) := by
  rw [read_key_of_no_marker _ _ h]
  have hf := find_content_head (": \"".toList ++ escape x ++ "\"\x7d".toList)
  simp only [content_line, String.toList, List.append_assoc, List.cons_append,
    List.nil_append] at hf ⊢
  rw [hf]
  simp [quote, read_key_loop, read_key_loop_escape]

theorem on_line_content_line (x : List Char) (m : Chat_message)
    (h : ¬ error_marker (content_line (escape x))) :
    Chat.on_line "content".toList (content_line (escape x)) m = .ok (m.call x) := by
  have hp : parse (escape x) = .ok x := by
    have := parse_escaped_append x []
    simpa [parse, Except.map] using this
  unfold Chat.on_line
  rw [read_key_content_line x h]
  simp [del_quote_quote, hp, bind, Except.bind, pure, Except.pure]

/-- The message object after the tokens `xs` have been delivered to it, in order. -/
theorem visit_all_content_lines (xs : List (List Char)) :
    ∀ m : Chat_message, (∀ x ∈ xs, ¬ error_marker (content_line (escape x))) →
      visit_all (Chat.on_line "content".toList) m (xs.map (fun x => content_line (escape x)))
        = .ok ⟨m.prog_encode, m.answer ++ xs.flatten, m.calls ++ xs⟩ := by
  induction xs with
  | nil => intro m _; simp [visit_all]
  | cons x xs ih =>
    intro m h
    have hx := h x (List.mem_cons_self x xs)
    have hne : content_line (escape x) ≠ [] := by simp [content_line]
    simp only [List.map_cons, visit_all, visit, if_neg hne, on_line_content_line x m hx]
    rw [ih (m.call x) (fun y hy => h y (List.mem_cons_of_mem x hy))]
    simp [Chat_message.call]

theorem call_back_content_lines (conv : Int → Int → List Char → List Char) (fuel : Nat)
    (xs : List (List Char)) (m : Chat_message)
    (hid : encode conv CP_UTF8 m.prog_encode
        (join_lines (xs.map (fun x => content_line (escape x))))
      = join_lines (xs.map (fun x => content_line (escape x))))
    (herr : ∀ x ∈ xs, ¬ error_marker (content_line (escape x)))
    (hfuel : xs.length + 2 ≤ fuel) :
    Chat.call_back conv fuel (some (join_lines (xs.map (fun x => content_line (escape x))))) m
      = some ⟨⟨m.prog_encode, m.answer ++ xs.flatten, m.calls ++ xs⟩, none⟩ := by
  simp only [Chat.call_back, hid]
  refine line_loop_finish _ _ [] m m _ fuel ?_ (by simp [visit])
    (visit_all_content_lines xs m herr) (by simpa using hfuel)
  intro l hl
  obtain ⟨x, _, rfl⟩ := List.mem_map.1 hl
  exact newline_not_mem_content_line x

theorem deliver_content_lines (conv : Int → Int → List Char → List Char) (fuel : Nat)
    (groups : List (List (List Char))) :
    ∀ m : Chat_message,
      (∀ g ∈ groups, encode conv CP_UTF8 m.prog_encode
          (join_lines (g.map (fun x => content_line (escape x))))
        = join_lines (g.map (fun x => content_line (escape x)))) →
      (∀ g ∈ groups, ∀ x ∈ g, ¬ error_marker (content_line (escape x))) →
      (∀ g ∈ groups, g.length + 2 ≤ fuel) →
      deliver (Chat.call_back conv fuel)
          (groups.map (fun g => some (join_lines (g.map (fun x => content_line (escape x)))))) m
        = some ⟨⟨m.prog_encode, m.answer ++ groups.flatten.flatten, m.calls ++ groups.flatten⟩,
            none⟩ := by
  induction groups with
  | nil => intro m _ _ _; simp [deliver]
  | cons g gs ih =>
    intro m hid herr hfuel
    simp only [List.map_cons, deliver]
    rw [call_back_content_lines conv fuel g m (hid g (List.mem_cons_self g gs))
      (herr g (List.mem_cons_self g gs)) (hfuel g (List.mem_cons_self g gs))]
    simp only
    rw [ih ⟨m.prog_encode, m.answer ++ g.flatten, m.calls ++ g⟩
      (fun h hh => hid h (List.mem_cons_of_mem g hh))
      (fun h hh => herr h (List.mem_cons_of_mem g hh))
      (fun h hh => hfuel h (List.mem_cons_of_mem g hh))]
    simp

/-- C1: a `Chat` provider whose code-page conversion leaves the chunks as they are receives
the token lines of the texts `x1..xn` (an opening brace, `"content": "E(xi)"`, a closing
brace and a newline each), grouped into chunks cut at line ends, none of the lines carrying
an error marker.  Then, with fuel for the longest chunk, `get question` returns normally,
has invoked the callback exactly on `x1, .., xn` in that order, and leaves the provider as it
was except that the history is the old history followed by `question` and
`x1 ++ .. ++ xn`. -/
theorem chat_get_token_lines (conv : Int → Int → List Char → List Char) (fuel code : Nat)
    (self : LLM) (question : List Char) (groups : List (List (List Char)))
    (hid : ∀ g ∈ groups, encode conv CP_UTF8 self.prog_encode
        (join_lines (g.map (fun x => content_line (escape x))))
      = join_lines (g.map (fun x => content_line (escape x))))
    (herr : ∀ g ∈ groups, ∀ x ∈ g, ¬ error_marker (content_line (escape x)))
    (hfuel : ∀ g ∈ groups, g.length + 2 ≤ fuel) :
    Chat.get conv fuel self
        ⟨groups.map (fun g => some (join_lines (g.map (fun x => content_line (escape x))))),
          code⟩ question
      = some ⟨{ self with history := self.history ++ [question, groups.flatten.flatten] },
          groups.flatten, none⟩ := by
  simp only [Chat.get, Chat.get_with, perform]
  rw [deliver_content_lines conv fuel groups ⟨self.prog_encode, [], []⟩ hid herr hfuel]
  simp [LLM.add_history]

theorem chat_get_token_lines_witness :
    Chat.get (fun _ _ t => t) 3 (LLM.new [] [] [] 0 0)
        ⟨[some "\x7b\"content\": \"Hel\"\x7d\n".toList,
          some "\x7b\"content\": \"lo\"\x7d\n".toList], 0⟩ "Hi".toList
      = some ⟨{ LLM.new [] [] [] 0 0 with history := ["Hi".toList, "Hello".toList] },
          ["Hel".toList, "lo".toList], none⟩ :=
  chat_get_token_lines (fun _ _ t => t) 3 0 (LLM.new [] [] [] 0 0) "Hi".toList
    [["Hel".toList], ["lo".toList]] (by decide) (by decide) (by decide)

/-! ## Lines that stop a sink -/

theorem line_loop_invariant {σ : Type} (P : σ → Prop)
    (body : List Char → σ → Except Failure σ)
    (hbody : ∀ l m m2, P m → body l m = .ok m2 → P m2) :
    ∀ (fuel : Nat) (str : istringstream) (cur : List Char) (m : σ) (r : Run σ),
      P m → line_loop body fuel str cur m = some r → P r.state := by
  intro fuel
  induction fuel with
  | zero => intro str cur m r _ h; simp [line_loop] at h
  | succ f ih =>
    intro str cur m r hm h
    by_cases hc : cur = []
    · by_cases he : str.eofbit = true
      · simp only [line_loop, if_pos hc, if_pos he, Option.some.injEq] at h
        subst h; exact hm
      · simp only [line_loop, if_pos hc, if_neg he] at h
        exact ih _ _ _ _ hm h
    · simp only [line_loop, if_neg hc] at h
      cases hb : body cur m with
      | ok m2 =>
        rw [hb] at h
        exact ih _ _ _ _ (hbody cur m m2 hm hb) h
      | error e =>
        rw [hb] at h
        cases e <;> simp only [Option.some.injEq] at h <;> subst h <;> exact hm

theorem deliver_invariant {σ : Type} (P : σ → Prop)
    (sink : Option (List Char) → σ → Option (Run σ))
    (hsink : ∀ c m r, P m → sink c m = some r → P r.state)
    (chunks : List (Option (List Char))) :
    ∀ (m : σ) (r : Run σ), P m → deliver sink chunks m = some r → P r.state := by
  induction chunks with
  | nil =>
    intro m r hm h
    simp only [deliver, Option.some.injEq] at h
    subst h; exact hm
  | cons c cs ih =>
    intro m r hm h
    simp only [deliver] at h
    cases hs : sink c m with
    | none => rw [hs] at h; cases h
    | some r1 =>
      rw [hs] at h
      have h1 := hsink c m r1 hm hs
      obtain ⟨m1, t⟩ := r1
      cases t with
      | none => exact ih m1 r h1 h
      | some e =>
        simp only [Option.some.injEq] at h
        subst h; exact h1

/-- An exception that leaves the sink on one chunk ends the transfer: later chunks are not
delivered. -/
theorem deliver_stop {σ : Type} (sink : Option (List Char) → σ → Option (Run σ))
    (c : Option (List Char)) (later : List (Option (List Char))) (m1 m2 : σ) (e : Failure)
    (hc : sink c m1 = some ⟨m2, some e⟩) (earlier : List (Option (List Char))) :
    ∀ m0 : σ, deliver sink earlier m0 = some ⟨m1, none⟩ →
      deliver sink (earlier ++ c :: later) m0 = some ⟨m2, some e⟩ := by
  induction earlier with
  | nil =>
    intro m0 h
    simp only [deliver, Option.some.injEq, Run.mk.injEq, and_true] at h
    subst h
    simp [deliver, hc]
  | cons d ds ih =>
    intro m0 h
    simp only [deliver] at h
    simp only [List.cons_append, deliver]
    cases hs : sink d m0 with
    | none => rw [hs] at h; cases h
    | some r1 =>
      rw [hs] at h
      obtain ⟨m3, t⟩ := r1
      cases t with
      | none => exact ih m3 h
      | some e2 => simp at h

theorem chat_on_line_prog_encode (field l : List Char) (m m2 : Chat_message)
    (h : Chat.on_line field l m = .ok m2) : m2.prog_encode = m.prog_encode := by
  unfold Chat.on_line at h
  cases h1 : read_key l field with
  | error e => simp [h1, bind, Except.bind] at h
  | ok v1 =>
    cases h2 : del_quote v1 with
    | error e => simp [h1, h2, bind, Except.bind] at h
    | ok v2 =>
      cases h3 : parse v2 with
      | error e => simp [h1, h2, h3, bind, Except.bind] at h
      | ok v3 =>
        simp [h1, h2, h3, bind, Except.bind, pure, Except.pure] at h
        subst h; rfl

theorem reasoner_on_line_prog_encode (l : List Char) (m m2 : Reasonal_message)
    (h : Reasoner.on_line l m = .ok m2) : m2.prog_encode = m.prog_encode := by
  unfold Reasoner.on_line at h
  cases h1 : read_key l "reasoning_content".toList with
  | error e => rw [h1] at h; simp [bind, Except.bind] at h
  | ok v1 =>
    cases h0 : read_key l "content".toList with
    | error e => rw [h1, h0] at h; simp [bind, Except.bind] at h
    | ok v0 =>
      rw [h1, h0] at h
      simp only [bind, Except.bind, pure, Except.pure] at h
      cases h2 : del_quote (if (!(v1 == "null".toList)) = true then v1 else v0) with
      | error e => rw [h2] at h; simp at h
      | ok v2 =>
        rw [h2] at h
        dsimp only at h
        cases h3 : parse v2 with
        | error e => rw [h3] at h; simp at h
        | ok v3 =>
          rw [h3] at h
          simp only [Except.ok.injEq] at h
          subst h
          split <;> rfl

theorem ne_nil_of_error_marker (bad : List Char) (h : error_marker bad) : bad ≠ [] := by
  rintro rfl
  rcases h with h | h <;> simp at h

theorem chat_call_back_prog_encode (conv : Int → Int → List Char → List Char) (fuel : Nat)
    (field : List Char) (p : Int) (c : List Char) (m : Chat_message) (r : Run Chat_message)
    (hm : m.prog_encode = p)
    (h : line_loop (Chat.on_line field) fuel ⟨encode conv CP_UTF8 m.prog_encode c, false⟩ [] m
      = some r) : r.state.prog_encode = p :=
  line_loop_invariant (fun x => x.prog_encode = p) (Chat.on_line field)
    (fun l a b ha hb => (chat_on_line_prog_encode field l a b hb).trans ha) fuel _ _ m r hm h

theorem chat_sink_prog_encode (conv : Int → Int → List Char → List Char) (fuel : Nat)
    (p : Int) (c : Option (List Char)) (m : Chat_message) (r : Run Chat_message)
    (hm : m.prog_encode = p) (h : Chat.call_back conv fuel c m = some r) :
    r.state.prog_encode = p := by
  cases c with
  | none =>
    simp only [Chat.call_back, Option.some.injEq] at h
    subst h; exact hm
  | some c => exact chat_call_back_prog_encode conv fuel _ p c m r hm h

theorem reasoner_sink_prog_encode (conv : Int → Int → List Char → List Char) (fuel : Nat)
    (p : Int) (c : Option (List Char)) (m : Reasonal_message) (r : Run Reasonal_message)
    (hm : m.prog_encode = p) (h : Reasoner.call_back conv fuel c m = some r) :
    r.state.prog_encode = p := by
  cases c with
  | none =>
    simp only [Reasoner.call_back, Option.some.injEq] at h
    subst h; exact hm
  | some c =>
    exact line_loop_invariant (fun x => x.prog_encode = p) Reasoner.on_line
      (fun l a b ha hb => (reasoner_on_line_prog_encode l a b hb).trans ha) fuel _ _ m r hm h

theorem chat_on_line_error (field bad : List Char) (m : Chat_message)
    (h : error_marker bad) : Chat.on_line field bad m = .error (.LLM_error bad) := by
  unfold Chat.on_line
  rw [read_key_of_error_marker bad field h]
  rfl

theorem reasoner_on_line_error (bad : List Char) (m : Reasonal_message)
    (h : error_marker bad) : Reasoner.on_line bad m = .error (.LLM_error bad) := by
  unfold Reasoner.on_line
  rw [read_key_of_error_marker bad _ h]
  rfl

/-- C2, as stated, fails: the second line of the chunk carries an `"error"` key, but the
first line lacks the field `content`, so the sink has left its loop before it looks at the
error line; `get` returns normally and appends the turn `(question, "")` to the history. -/
theorem chat_get_skips_error_line :
    Chat.get (fun _ _ t => t) 5 (LLM.new [] [] [] 0 0)
        ⟨[some "\x7b\"id\": \"1\"\x7d\n\x7b\"error\": \"quota\"\x7d\n".toList], 0⟩
        "Hi".toList
      = some ⟨{ LLM.new [] [] [] 0 0 with history := ["Hi".toList, []] }, [], none⟩ := by
  decide

/-- C2, amended: for a `Chat` and for a `Reasoner` provider, if the line loop reaches a line
`bad` that carries an error marker (the earlier chunks were consumed without an exception,
and the lines before `bad` in its chunk are empty or passed the `try` block), then `get`
fails with `LLM_error` whose message is the line `bad`; the provider, its history included,
is what it was before the call, and the callback has received the tokens of the earlier
lines. -/
theorem get_error_line (conv : Int → Int → List Char → List Char) (fuel code : Nat)
    (question : List Char) (earlier later : List (Option (List Char))) (chunk : List Char)
    (pre : List (List Char)) (bad r : List Char)
    (hmark : error_marker bad) (hbad : '\n' ∉ bad)
    (hr : r = [] ∨ ∃ rest, r = '\n' :: rest)
    (hpre : ∀ l ∈ pre, '\n' ∉ l) (hfuel : pre.length + 2 ≤ fuel) :
    (∀ (self : LLM) (m1 m2 : Chat_message),
      encode conv CP_UTF8 self.prog_encode chunk = join_lines pre ++ (bad ++ r) →
      deliver (Chat.call_back conv fuel) earlier ⟨self.prog_encode, [], []⟩
        = some ⟨m1, none⟩ →
      visit_all (Chat.on_line "content".toList) m1 pre = .ok m2 →
      Chat.get conv fuel self ⟨earlier ++ some chunk :: later, code⟩ question
        = some ⟨self, m2.calls, some (.LLM_error bad)⟩) ∧
    (∀ (self : Reasoner) (m1 m2 : Reasonal_message),
      encode conv CP_UTF8 self.prog_encode chunk = join_lines pre ++ (bad ++ r) →
      deliver (Reasoner.call_back conv fuel) earlier ⟨self.prog_encode, [], [], []⟩
        = some ⟨m1, none⟩ →
      visit_all Reasoner.on_line m1 pre = .ok m2 →
      Reasoner.get conv fuel self ⟨earlier ++ some chunk :: later, code⟩ question
        = some ⟨self, m2.calls, some (.LLM_error bad)⟩) := by
  have hne := ne_nil_of_error_marker bad hmark
  constructor
  · intro self m1 m2 hchunk hearlier hrun
    have hp : m1.prog_encode = self.prog_encode :=
      deliver_invariant (fun x => x.prog_encode = self.prog_encode) _
        (fun c m r hm h => chat_sink_prog_encode conv fuel _ c m r hm h) earlier _ _ rfl
        hearlier
    have hsink : Chat.call_back conv fuel (some chunk) m1
        = some ⟨m2, some (.LLM_error bad)⟩ := by
      simp only [Chat.call_back, hp, hchunk]
      have := line_loop_stop (Chat.on_line "content".toList) pre bad r (.LLM_error bad)
        hbad hne hr [] m1 m1 m2 fuel hpre (by simp [visit]) hrun
        (chat_on_line_error _ bad m2 hmark) hfuel
      simpa using this
    simp only [Chat.get, Chat.get_with, perform]
    rw [deliver_stop _ (some chunk) later m1 m2 _ hsink earlier _ hearlier]
  · intro self m1 m2 hchunk hearlier hrun
    have hp : m1.prog_encode = self.prog_encode :=
      deliver_invariant (fun x => x.prog_encode = self.prog_encode) _
        (fun c m r hm h => reasoner_sink_prog_encode conv fuel _ c m r hm h) earlier _ _ rfl
        hearlier
    have hsink : Reasoner.call_back conv fuel (some chunk) m1
        = some ⟨m2, some (.LLM_error bad)⟩ := by
      simp only [Reasoner.call_back, hp, hchunk]
      have := line_loop_stop Reasoner.on_line pre bad r (.LLM_error bad)
        hbad hne hr [] m1 m1 m2 fuel hpre (by simp [visit]) hrun
        (reasoner_on_line_error bad m2 hmark) hfuel
      simpa using this
    simp only [Reasoner.get, perform]
    rw [deliver_stop _ (some chunk) later m1 m2 _ hsink earlier _ hearlier]

theorem get_error_line_witness :
    Chat.get (fun _ _ t => t) 3 (LLM.new [] [] [] 0 0)
        ⟨[some "\x7b\"content\": \"Hel\"\x7d\n".toList] ++
          some ("\x7b\"content\": \"lo\"\x7d\n".toList ++
            "\x7b\"error\": \"quota\"\x7d\n\x7b\"content\": \"x\"\x7d\n".toList) :: [], 0⟩
        "Hi".toList
      = some ⟨LLM.new [] [] [] 0 0, ["Hel".toList, "lo".toList],
          some (.LLM_error "\x7b\"error\": \"quota\"\x7d".toList)⟩ ∧
    Reasoner.get (fun _ _ t => t) 3 ⟨LLM.new [] [] [] 0 0, "old".toList⟩
        ⟨[some (dual_line ("Hm".toList, true) ++ ['\n'])] ++
          some (dual_line ("Yes".toList, false) ++ '\n' ::
            "\x7b\"error\": \"quota\"\x7d".toList) :: [], 0⟩
        "Hi".toList
      = some ⟨⟨LLM.new [] [] [] 0 0, "old".toList⟩,
          [("Hm".toList, true), ("Yes".toList, false)],
          some (.LLM_error "\x7b\"error\": \"quota\"\x7d".toList)⟩ :=
  ⟨(get_error_line (fun _ _ t => t) 3 0 "Hi".toList
      [some "\x7b\"content\": \"Hel\"\x7d\n".toList] []
      ("\x7b\"content\": \"lo\"\x7d\n".toList ++
        "\x7b\"error\": \"quota\"\x7d\n\x7b\"content\": \"x\"\x7d\n".toList)
      ["\x7b\"content\": \"lo\"\x7d".toList] "\x7b\"error\": \"quota\"\x7d".toList
      "\n\x7b\"content\": \"x\"\x7d\n".toList
      (by decide) (by decide) (Or.inr ⟨_, rfl⟩) (by decide) (by decide)).1
      (LLM.new [] [] [] 0 0) ⟨0, "Hel".toList, ["Hel".toList]⟩
      ⟨0, "Hello".toList, ["Hel".toList, "lo".toList]⟩ (by decide) (by decide) rfl,
   (get_error_line (fun _ _ t => t) 3 0 "Hi".toList
      [some (dual_line ("Hm".toList, true) ++ ['\n'])] []
      (dual_line ("Yes".toList, false) ++ '\n' :: "\x7b\"error\": \"quota\"\x7d".toList)
      [dual_line ("Yes".toList, false)] "\x7b\"error\": \"quota\"\x7d".toList []
      (by decide) (by decide) (Or.inl rfl) (by decide) (by decide)).2
      ⟨LLM.new [] [] [] 0 0, "old".toList⟩ ⟨0, [], "Hm".toList, [("Hm".toList, true)]⟩
      ⟨0, "Yes".toList, "Hm".toList, [("Hm".toList, true), ("Yes".toList, false)]⟩
      (by decide) (by decide) rfl⟩

/-! ## Token lines of a `Reasoner` provider -/

theorem read_key_ok_of_occurs (json key : List Char) (hm : ¬ error_marker json)
    (h : quote key <:+: json) : ∃ v, read_key json key = .ok v := by
  rw [read_key_of_no_marker _ _ hm]
  cases hf : find json (quote key) with
  | none => exact absurd h ((find_eq_none_iff _ _).1 hf)
  | some i => exact ⟨_, rfl⟩

theorem read_key_reasoning_of_reasoning_line (x : List Char)
    (h : ¬ error_marker (dual_line (x, true))) :
    read_key (dual_line (x, true)) "reasoning_content".toList = .ok (quote (escape x)) := by
  rw [read_key_of_no_marker _ _ h]
  have hf : find (dual_line (x, true)) (quote "reasoning_content".toList) = some 1 := by
    simp [find, quote, dual_line]
  rw [hf]
  simp [dual_line, quote, read_key_loop, read_key_loop_escape]

theorem read_key_content_of_reasoning_line (x : List Char)
    (h : ¬ error_marker (dual_line (x, true))) :
    ∃ v, read_key (dual_line (x, true)) "content".toList = .ok v := by
  refine read_key_ok_of_occurs _ _ h ?_
  exact ⟨"\x7b\"reasoning_content\": \"".toList ++ escape x ++ "\", ".toList,
    ": null\x7d".toList, by simp [dual_line, quote]⟩

theorem read_key_reasoning_of_answer_line (x : List Char)
    (h : ¬ error_marker (dual_line (x, false))) :
    read_key (dual_line (x, false)) "reasoning_content".toList = .ok "null".toList := by
  rw [read_key_of_no_marker _ _ h]
  have hf : find (dual_line (x, false)) (quote "reasoning_content".toList) = some 1 := by
    simp [find, quote, dual_line]
  rw [hf]
  simp [dual_line, quote, read_key_loop]

theorem read_key_content_of_answer_line (x : List Char)
    (h : ¬ error_marker (dual_line (x, false))) :
    read_key (dual_line (x, false)) "content".toList = .ok (quote (escape x)) := by
  rw [read_key_of_no_marker _ _ h]
  have hf : find (dual_line (x, false)) (quote "content".toList) = some 28 := by
    simp [find, quote, dual_line]
  rw [hf]
  simp [dual_line, quote, read_key_loop, read_key_loop_escape]

theorem reasoner_on_line_dual_line (t : List Char × Bool) (m : Reasonal_message)
    (h : ¬ error_marker (dual_line t)) :
    Reasoner.on_line (dual_line t) m = .ok (if t.2 then m.reason t.1 else m.call t.1) := by
  obtain ⟨x, b⟩ := t
  have hp : parse (escape x) = .ok x := by
    have := parse_escaped_append x []
    simpa [parse, Except.map] using this
  unfold Reasoner.on_line
  cases b with
  | true =>
    obtain ⟨v, hv⟩ := read_key_content_of_reasoning_line x h
    rw [read_key_reasoning_of_reasoning_line x h, hv]
    have hq : quote (escape x) ≠ ['n', 'u', 'l', 'l'] := by simp [quote]
    simp [hq, del_quote_quote, hp, bind, Except.bind, pure, Except.pure]
  | false =>
    rw [read_key_reasoning_of_answer_line x h, read_key_content_of_answer_line x h]
    simp [del_quote_quote, hp, bind, Except.bind, pure, Except.pure]

theorem channel_text_append (reasoning : Bool) (ts us : List (List Char × Bool)) :
    channel_text reasoning (ts ++ us)
      = channel_text reasoning ts ++ channel_text reasoning us := by
  simp [channel_text]

theorem read_key_absent (json key : List Char) (hm : ¬ error_marker json)
    (h : ¬ quote key <:+: json) : read_key json key = .error .Not_found_error := by
  rw [read_key_of_no_marker _ _ hm, (find_eq_none_iff _ _).2 h]

theorem chat_on_line_not_found (field line : List Char) (m : Chat_message)
    (hm : ¬ error_marker line) (h : ¬ quote field <:+: line) :
    Chat.on_line field line m = .error .Not_found_error := by
  unfold Chat.on_line
  rw [read_key_absent line field hm h]
  rfl

theorem reasoner_on_line_not_found (line : List Char) (m : Reasonal_message)
    (hm : ¬ error_marker line)
    (h : ¬ quote "reasoning_content".toList <:+: line ∨ ¬ quote "content".toList <:+: line) :
    Reasoner.on_line line m = .error .Not_found_error := by
  unfold Reasoner.on_line
  by_cases h1 : quote "reasoning_content".toList <:+: line
  · obtain ⟨v, hv⟩ := read_key_ok_of_occurs line _ hm h1
    have h0 : ¬ quote "content".toList <:+: line := h.resolve_left (fun hh => hh h1)
    rw [hv, read_key_absent line _ hm h0]
    rfl
  · rw [read_key_absent line _ hm h1]
    rfl

/-- C9, as stated, fails: the first line of the chunk lacks the field `content`; the second
line carries it, yet the sink returns without having delivered its token. -/
theorem chat_call_back_later_line_dropped :
    Chat.call_back (fun _ _ t => t) 5
        (some "\x7b\"id\": \"1\"\x7d\n\x7b\"content\": \"a\"\x7d\n".toList) ⟨0, [], []⟩
      = some ⟨⟨0, [], []⟩, none⟩ := by
  decide

/-- C9, amended: in each of the three chunk sinks, a non-empty line `bad` that passes the
error check and on which the targeted field is absent (for a `Reasoner`: one of its two
fields) delivers no token and raises no error, and the sink returns at that line: the
message object is the one left by the lines before `bad`, whatever follows `bad` in the
chunk. -/
theorem sink_absent_field (conv : Int → Int → List Char → List Char) (fuel : Nat)
    (chunk : List Char) (pre : List (List Char)) (bad r : List Char)
    (hne : bad ≠ []) (hbad : '\n' ∉ bad) (hm : ¬ error_marker bad)
    (hr : r = [] ∨ ∃ rest, r = '\n' :: rest)
    (hpre : ∀ l ∈ pre, '\n' ∉ l) (hfuel : pre.length + 2 ≤ fuel) :
    (∀ m1 m2 : Chat_message,
      encode conv CP_UTF8 m1.prog_encode chunk = join_lines pre ++ (bad ++ r) →
      ¬ quote "content".toList <:+: bad →
      visit_all (Chat.on_line "content".toList) m1 pre = .ok m2 →
      Chat.call_back conv fuel (some chunk) m1 = some ⟨m2, none⟩) ∧
    (∀ m1 m2 : Chat_message,
      encode conv CP_UTF8 m1.prog_encode chunk = join_lines pre ++ (bad ++ r) →
      ¬ quote "text".toList <:+: bad →
      visit_all (Chat.on_line "text".toList) m1 pre = .ok m2 →
      Fim_base.call_back conv fuel (some chunk) m1 = some ⟨m2, none⟩) ∧
    (∀ m1 m2 : Reasonal_message,
      encode conv CP_UTF8 m1.prog_encode chunk = join_lines pre ++ (bad ++ r) →
      (¬ quote "reasoning_content".toList <:+: bad ∨ ¬ quote "content".toList <:+: bad) →
      visit_all Reasoner.on_line m1 pre = .ok m2 →
      Reasoner.call_back conv fuel (some chunk) m1 = some ⟨m2, none⟩) := by
  refine ⟨?_, ?_, ?_⟩
  · intro m1 m2 hchunk habs hrun
    simp only [Chat.call_back, hchunk]
    have := line_loop_stop (Chat.on_line "content".toList) pre bad r .Not_found_error
      hbad hne hr [] m1 m1 m2 fuel hpre (by simp [visit]) hrun
      (chat_on_line_not_found _ bad m2 hm habs) hfuel
    simpa using this
  · intro m1 m2 hchunk habs hrun
    simp only [Fim_base.call_back, hchunk]
    have := line_loop_stop (Chat.on_line "text".toList) pre bad r .Not_found_error
      hbad hne hr [] m1 m1 m2 fuel hpre (by simp [visit]) hrun
      (chat_on_line_not_found _ bad m2 hm habs) hfuel
    simpa using this
  · intro m1 m2 hchunk habs hrun
    simp only [Reasoner.call_back, hchunk]
    have := line_loop_stop Reasoner.on_line pre bad r .Not_found_error
      hbad hne hr [] m1 m1 m2 fuel hpre (by simp [visit]) hrun
      (reasoner_on_line_not_found bad m2 hm habs) hfuel
    simpa using this

theorem sink_absent_field_witness :
    Chat.call_back (fun _ _ t => t) 3
        (some ("\x7b\"content\": \"a\"\x7d\n".toList ++
          ("\x7b\"id\": \"1\"\x7d".toList ++ "\n\x7b\"content\": \"b\"\x7d\n".toList)))
        ⟨0, [], []⟩
      = some ⟨⟨0, "a".toList, ["a".toList]⟩, none⟩ ∧
    Fim_base.call_back (fun _ _ t => t) 3
        (some ("\x7b\"text\": \"a\"\x7d\n".toList ++
          ("\x7b\"id\": \"1\"\x7d".toList ++ "\n\x7b\"text\": \"b\"\x7d\n".toList)))
        ⟨0, [], []⟩
      = some ⟨⟨0, "a".toList, ["a".toList]⟩, none⟩ ∧
    Reasoner.call_back (fun _ _ t => t) 3
        (some (dual_line ("a".toList, true) ++ '\n' ::
          ("\x7b\"content\": \"b\"\x7d".toList ++
            '\n' :: (dual_line ("c".toList, false) ++ ['\n']))))
        ⟨0, [], [], []⟩
      = some ⟨⟨0, [], "a".toList, [("a".toList, true)]⟩, none⟩ :=
  ⟨(sink_absent_field (fun _ _ t => t) 3 _ ["\x7b\"content\": \"a\"\x7d".toList]
      "\x7b\"id\": \"1\"\x7d".toList "\n\x7b\"content\": \"b\"\x7d\n".toList
      (by decide) (by decide) (by decide) (Or.inr ⟨_, rfl⟩) (by decide) (by decide)).1
      ⟨0, [], []⟩ ⟨0, "a".toList, ["a".toList]⟩ rfl (by decide) rfl,
   (sink_absent_field (fun _ _ t => t) 3 _ ["\x7b\"text\": \"a\"\x7d".toList]
      "\x7b\"id\": \"1\"\x7d".toList "\n\x7b\"text\": \"b\"\x7d\n".toList
      (by decide) (by decide) (by decide) (Or.inr ⟨_, rfl⟩) (by decide) (by decide)).2.1
      ⟨0, [], []⟩ ⟨0, "a".toList, ["a".toList]⟩ rfl (by decide) rfl,
   (sink_absent_field (fun _ _ t => t) 3 _ [dual_line ("a".toList, true)]
      "\x7b\"content\": \"b\"\x7d".toList ('\n' :: (dual_line ("c".toList, false) ++ ['\n']))
      (by decide) (by decide) (by decide) (Or.inr ⟨_, rfl⟩) (by decide) (by decide)).2.2
      ⟨0, [], [], []⟩ ⟨0, [], "a".toList, [("a".toList, true)]⟩ rfl
      (Or.inl (by decide)) rfl⟩

/-- C10, as stated, fails: a line with the key `content` only, without the key
`reasoning_content`, delivers no answer token through the sink of a `Reasoner`. -/
theorem reasoner_call_back_content_only :
    Reasoner.call_back (fun _ _ t => t) 5 (some "\x7b\"content\": \"a\"\x7d\n".toList)
        ⟨0, [], [], []⟩
      = some ⟨⟨0, [], [], []⟩, none⟩ := by
  decide

theorem read_key_of_has_value (line key value : List Char) (hm : ¬ error_marker line)
    (h : has_value line key value)
    (hv : ∀ tail : List Char, (tail = [] ∨ ∃ c t, tail = c :: t ∧ (c = ',' ∨ c = '}')) →
      read_key_loop (value ++ tail) false false = value) :
    read_key line key = .ok value := by
  obtain ⟨hk, ws, tail, ha, hws, htail⟩ := h
  rw [read_key_of_no_marker _ _ hm]
  unfold after_key at ha
  cases hf : find line (quote key) with
  | none => exact absurd hk ((find_eq_none_iff _ _).1 hf)
  | some i =>
    rw [hf] at ha
    simp only at ha ⊢
    rw [ha, List.append_assoc, read_key_loop_skip ws (value ++ tail) hws, hv tail htail]

theorem read_key_of_quoted_value (line key s : List Char) (hm : ¬ error_marker line)
    (h : has_value line key (quote (escape s))) :
    read_key line key = .ok (quote (escape s)) := by
  refine read_key_of_has_value line key _ hm h ?_
  intro tail htail
  rcases htail with ht | ⟨c, t, ht, hc⟩
  · subst ht
    simp [quote, read_key_loop, read_key_loop_escape]
  · subst ht
    rcases hc with hc | hc <;> subst hc <;> simp [quote, read_key_loop, read_key_loop_escape]

theorem read_key_of_null_value (line key : List Char) (hm : ¬ error_marker line)
    (h : has_value line key "null".toList) :
    read_key line key = .ok "null".toList := by
  refine read_key_of_has_value line key _ hm h ?_
  intro tail htail
  rcases htail with ht | ⟨c, t, ht, hc⟩
  · subst ht
    simp [read_key_loop]
  · subst ht
    rcases hc with hc | hc <;> subst hc <;> simp [read_key_loop]

/-- C10, amended: for a `Reasoner` and every line without error marker.  If the first
occurrence of the quoted key `reasoning_content` is followed (after spaces and colons) by a
quoted escaped text `E(s)` and then by a comma, a closing brace or the end of the line, and
the quoted key `content` occurs in the line, the line yields `s` as a Reasoning-channel
token.  If the value found there is the literal null and the first occurrence of the quoted
key `content` is followed in the same way by a quoted escaped text `E(s)`, the line yields
`s` as an Answer-channel token.  A line on which either quoted key is absent, such as a
line with the key `content` only, yields no token: the `try` block leaves with
`Not_found_error`. -/
theorem reasoner_on_line_channels (s line : List Char) (m : Reasonal_message)
    (hm : ¬ error_marker line) :
    (has_value line "reasoning_content".toList (quote (escape s)) →
      quote "content".toList <:+: line →
      Reasoner.on_line line m = .ok (m.reason s)) ∧
    (has_value line "reasoning_content".toList "null".toList →
      has_value line "content".toList (quote (escape s)) →
      Reasoner.on_line line m = .ok (m.call s)) ∧
    ((¬ quote "reasoning_content".toList <:+: line ∨ ¬ quote "content".toList <:+: line) →
      Reasoner.on_line line m = .error .Not_found_error) := by
  have hp : parse (escape s) = .ok s := by
    have := parse_escaped_append s []
    simpa [parse, Except.map] using this
  refine ⟨fun hr hc => ?_, fun hr hc => ?_, fun h => reasoner_on_line_not_found line m hm h⟩
  · obtain ⟨v, hv⟩ := read_key_ok_of_occurs line "content".toList hm hc
    unfold Reasoner.on_line
    rw [read_key_of_quoted_value line _ s hm hr, hv]
    have hq : quote (escape s) ≠ ['n', 'u', 'l', 'l'] := by simp [quote]
    simp [hq, del_quote_quote, hp, bind, Except.bind, pure, Except.pure]
  · unfold Reasoner.on_line
    rw [read_key_of_null_value line _ hm hr, read_key_of_quoted_value line _ s hm hc]
    simp [del_quote_quote, hp, bind, Except.bind, pure, Except.pure]

theorem reasoner_on_line_channels_witness :
    Reasoner.on_line
        "\x7b\"id\": 1, \"reasoning_content\": \"a\\\"b\", \"content\": null\x7d".toList
        ⟨0, [], [], []⟩
      = .ok ⟨0, [], "a\"b".toList, [("a\"b".toList, true)]⟩ ∧
    Reasoner.on_line
        "\x7b\"content\": \"a\\\"b\", \"reasoning_content\" : null\x7d".toList
        ⟨0, [], [], []⟩
      = .ok ⟨0, "a\"b".toList, [], [("a\"b".toList, false)]⟩ ∧
    Reasoner.on_line (content_line (escape "a\"b".toList)) ⟨0, [], [], []⟩
      = .error .Not_found_error :=
  ⟨(reasoner_on_line_channels "a\"b".toList
      "\x7b\"id\": 1, \"reasoning_content\": \"a\\\"b\", \"content\": null\x7d".toList
      ⟨0, [], [], []⟩ (by decide)).1
      ⟨by decide, ": ".toList, ", \"content\": null\x7d".toList, by decide, by decide,
        Or.inr ⟨',', " \"content\": null\x7d".toList, rfl, Or.inl rfl⟩⟩
      (by decide),
   (reasoner_on_line_channels "a\"b".toList
      "\x7b\"content\": \"a\\\"b\", \"reasoning_content\" : null\x7d".toList
      ⟨0, [], [], []⟩ (by decide)).2.1
      ⟨by decide, " : ".toList, "\x7d".toList, by decide, by decide,
        Or.inr ⟨'}', [], rfl, Or.inr rfl⟩⟩
      ⟨by decide, ": ".toList, ", \"reasoning_content\" : null\x7d".toList, by decide,
        by decide, Or.inr ⟨',', " \"reasoning_content\" : null\x7d".toList, rfl, Or.inl rfl⟩⟩,
   (reasoner_on_line_channels "a\"b".toList (content_line (escape "a\"b".toList))
      ⟨0, [], [], []⟩ (by decide)).2.2 (Or.inl (by decide))⟩

/-! ## Conversation history -/

theorem get_history_scan_flat (turns : List (List Char × List Char)) (ques : List Char) :
    get_history_scan (flat_turns turns) ques
      = match turns.find? (fun t => t.1 = ques) with
        | some t => .ok t.2
        | none => .error .Not_found_error := by
  induction turns with
  | nil => rfl
  | cons t ts ih =>
    by_cases h : t.1 = ques
    · simp [flat_turns, get_history_scan, List.find?, h]
    · simp [flat_turns, get_history_scan, List.find?, h, ih]

theorem flat_turns_eq_nil (turns : List (List Char × List Char)) :
    flat_turns turns = [] ↔ turns = [] := by
  cases turns <;> simp [flat_turns]

theorem getLastD_flat_turns (t : List Char × List Char)
    (turns : List (List Char × List Char)) :
    (flat_turns (t :: turns)).getLastD [] = ((t :: turns).getLastD ([], [])).2 := by
  induction turns generalizing t with
  | nil => simp [flat_turns]
  | cons u us ih =>
    have := ih u
    simp [flat_turns] at this ⊢
    exact this

theorem find_first_match (pre post : List (List Char × List Char)) (q a : List Char)
    (hpre : ∀ t ∈ pre, t.1 ≠ q) :
    (pre ++ (q, a) :: post).find? (fun t => t.1 = q) = some (q, a) := by
  induction pre with
  | nil => simp [List.find?]
  | cons t ts ih =>
    have ht := hpre t (List.mem_cons_self t ts)
    simp [List.find?, ht, ih (fun u hu => hpre u (List.mem_cons_of_mem t hu))]

/-- C11, as stated, fails for an empty `q1`: the empty query asks for the most recent
answer, so after the two appends `get_history q1` is `a2`, not `a1`. -/
theorem get_history_empty_first_question :
    (((LLM.new [] [] [] 0 0).add_history [] "x".toList).add_history "q".toList
        "y".toList).get_history [] = .ok "y".toList ∧
    (((LLM.new [] [] [] 0 0).add_history [] "x".toList).add_history "q".toList
        "y".toList).get_history [] ≠ .ok "x".toList := by
  have h : (((LLM.new [] [] [] 0 0).add_history [] "x".toList).add_history "q".toList
      "y".toList).get_history [] = .ok "y".toList := rfl
  refine ⟨h, ?_⟩
  rw [h]
  intro h2
  cases h2

/-- C11, amended: for all texts `q1, a1, q2, a2`, starting from an empty history, after
`add_history q1 a1` and `add_history q2 a2`: `get_history_index 0` is `(q1, a1)`,
`get_history_index 1` is `(q2, a2)`, `get_history` of the empty query is `a2`, and
`get_history q1` is `a1` provided `q1` is not empty. -/
theorem history_after_two_appends (self : LLM) (q1 a1 q2 a2 : List Char)
    (h0 : self.history = []) :
    ((self.add_history q1 a1).add_history q2 a2).get_history_index 0 = .ok (q1, a1) ∧
    ((self.add_history q1 a1).add_history q2 a2).get_history_index 1 = .ok (q2, a2) ∧
    ((self.add_history q1 a1).add_history q2 a2).get_history [] = .ok a2 ∧
    (q1 ≠ [] → ((self.add_history q1 a1).add_history q2 a2).get_history q1 = .ok a1) := by
  have hh : ((self.add_history q1 a1).add_history q2 a2).history = [q1, a1, q2, a2] := by
    simp [LLM.add_history, h0]
  refine ⟨?_, ?_, ?_, ?_⟩
  · simp only [LLM.get_history_index, hh]
    rfl
  · simp only [LLM.get_history_index, hh]
    rfl
  · simp [LLM.get_history, hh]
  · intro hq
    simp [LLM.get_history, hh, hq, get_history_scan]

theorem history_after_two_appends_witness :
    ((((LLM.new [] [] [] 0 0).add_history "q1".toList "a1".toList).add_history
        "q2".toList "a2".toList).get_history_index 0 = .ok ("q1".toList, "a1".toList)) ∧
    ((((LLM.new [] [] [] 0 0).add_history "q1".toList "a1".toList).add_history
        "q2".toList "a2".toList).get_history_index 1 = .ok ("q2".toList, "a2".toList)) ∧
    ((((LLM.new [] [] [] 0 0).add_history "q1".toList "a1".toList).add_history
        "q2".toList "a2".toList).get_history [] = .ok "a2".toList) ∧
    ((((LLM.new [] [] [] 0 0).add_history "q1".toList "a1".toList).add_history
        "q2".toList "a2".toList).get_history "q1".toList = .ok "a1".toList) :=
  have h := history_after_two_appends (LLM.new [] [] [] 0 0) "q1".toList "a1".toList
    "q2".toList "a2".toList rfl
  ⟨h.1, h.2.1, h.2.2.1, h.2.2.2 (by decide)⟩

/-- C12, as stated, fails: with two stored turns that have the same question, `get_history`
returns the answer of the first of them, not of the most recent one. -/
theorem get_history_not_most_recent :
    (((LLM.new [] [] [] 0 0).add_history "q".toList "old".toList).add_history "q".toList
        "new".toList).get_history "q".toList = .ok "old".toList ∧
    (((LLM.new [] [] [] 0 0).add_history "q".toList "old".toList).add_history "q".toList
        "new".toList).get_history "q".toList ≠ .ok "new".toList := by
  have h : (((LLM.new [] [] [] 0 0).add_history "q".toList "old".toList).add_history
      "q".toList "new".toList).get_history "q".toList = .ok "old".toList := rfl
  refine ⟨h, ?_⟩
  rw [h]
  intro h2
  cases h2

/-- C12, amended: for every history of paired turns and every non-empty question text `q`
that equals the question of at least one stored turn, `get_history q` returns the answer of
the first (oldest) stored turn whose question equals `q`. -/
theorem get_history_first_match (self : LLM) (pre post : List (List Char × List Char))
    (q a : List Char) (hq : q ≠ []) (hpre : ∀ t ∈ pre, t.1 ≠ q)
    (hh : self.history = flat_turns (pre ++ (q, a) :: post)) :
    self.get_history q = .ok a := by
  have hne : flat_turns (pre ++ (q, a) :: post) ≠ [] := by
    rw [Ne, flat_turns_eq_nil]; simp
  simp only [LLM.get_history, hh, if_neg hne, if_neg hq]
  rw [get_history_scan_flat, find_first_match pre post q a hpre]

theorem get_history_first_match_witness :
    (((LLM.new [] [] [] 0 0).add_history "p".toList "x".toList).add_history "q".toList
        "old".toList |>.add_history "q".toList "new".toList).get_history "q".toList
      = .ok "old".toList :=
  get_history_first_match _ [("p".toList, "x".toList)] [("q".toList, "new".toList)]
    "q".toList "old".toList (by decide) (by decide) rfl

/-- C13: on a history of paired turns `get_history` is the reference behaviour: it fails
with `Empty_history_error` exactly when no turn is stored; otherwise the empty query gives
the answer of the last turn; otherwise the turns are scanned front to back and the answer of
the first turn whose question equals the query is returned, `Not_found_error` being thrown
exactly when no stored question equals the query. -/
theorem get_history_refines (self : LLM) (turns : List (List Char × List Char))
    (ques : List Char) (hh : self.history = flat_turns turns) :
    self.get_history ques = get_history_reference turns ques ∧
    (self.get_history ques = .error .Empty_history_error ↔ turns = []) ∧
    (self.get_history ques = .error .Not_found_error ↔
      turns ≠ [] ∧ ques ≠ [] ∧ ∀ t ∈ turns, t.1 ≠ ques) := by
  have heq : self.get_history ques = get_history_reference turns ques := by
    cases turns with
    | nil => simp [LLM.get_history, get_history_reference, hh, flat_turns]
    | cons t ts =>
      have hne : flat_turns (t :: ts) ≠ [] := by simp [flat_turns]
      by_cases hq : ques = []
      · simp only [LLM.get_history, get_history_reference, hh, if_neg hne, if_pos hq,
          getLastD_flat_turns]
        simp
      · simp only [LLM.get_history, get_history_reference, hh, if_neg hne, if_neg hq,
          get_history_scan_flat]
        simp
  refine ⟨heq, ?_, ?_⟩
  · rw [heq]
    cases turns with
    | nil => simp [get_history_reference]
    | cons t ts =>
      by_cases hq : ques = []
      · simp [get_history_reference, hq]
      · cases hf : (t :: ts).find? (fun u => u.1 = ques) <;>
          simp [get_history_reference, hq, hf]
  · rw [heq]
    cases turns with
    | nil => simp [get_history_reference]
    | cons t ts =>
      by_cases hq : ques = []
      · simp [get_history_reference, hq]
      · cases hf : (t :: ts).find? (fun u => u.1 = ques) with
        | none =>
          have hr : get_history_reference (t :: ts) ques = .error .Not_found_error := by
            simp only [get_history_reference, hf]
            simp [hq]
          have hall : ∀ x ∈ t :: ts, x.1 ≠ ques := by
            simpa using hf
          rw [hr]
          exact ⟨fun _ => ⟨List.cons_ne_nil _ _, hq, hall⟩, fun _ => rfl⟩
        | some u =>
          have hu := List.find?_some hf
          have hm := List.mem_of_find?_eq_some hf
          simp only [decide_eq_true_eq] at hu
          have hr : get_history_reference (t :: ts) ques = .ok u.2 := by
            simp only [get_history_reference, hf]
            simp [hq]
          rw [hr]
          constructor
          · intro h; cases h
          · rintro ⟨_, _, hall⟩
            exact absurd hu (hall u hm)

theorem get_history_refines_witness :
    (((LLM.new [] [] [] 0 0).add_history "p".toList "x".toList).add_history "q".toList
        "y".toList).get_history "q".toList
      = get_history_reference [("p".toList, "x".toList), ("q".toList, "y".toList)]
          "q".toList ∧
    get_history_reference [("p".toList, "x".toList), ("q".toList, "y".toList)] "q".toList
      = .ok "y".toList :=
  ⟨(get_history_refines _ [("p".toList, "x".toList), ("q".toList, "y".toList)] "q".toList
      rfl).1, rfl⟩

/-- C14 fails on the code: with one stored turn and the index `-2147483648` (the smallest
`int`), `index*2+1` wraps around to `1`, the bound check passes and turn 0 is returned
instead of `Not_found_error`. -/
theorem get_history_index_int_min :
    ((LLM.new [] [] [] 0 0).add_history "q".toList "a".toList).get_history_index
        (-2147483648) = .ok ("q".toList, "a".toList) := by
  rfl

/-! ## Completed and failed transfers -/

/-- C16 fails on the code: `Curl::perform` discards the result of `curl_easy_perform`, so
the outcome of `get` does not depend on the `CURLcode`; with a transfer that fails to
connect (code 7, no chunk delivered) `get` returns normally and appends the turn
`(question, "")` to the history. -/
theorem chat_get_ignores_transfer_code (conv : Int → Int → List Char → List Char)
    (fuel code : Nat) (self : LLM) (deliveries : List (Option (List Char)))
    (question : List Char) :
    Chat.get conv fuel self ⟨deliveries, code⟩ question
      = Chat.get conv fuel self ⟨deliveries, 0⟩ question ∧
    Chat.get conv fuel self ⟨[], 7⟩ question
      = some ⟨{ self with history := self.history ++ [question, []] }, [], none⟩ := by
  constructor
  · simp only [Chat.get, Chat.get_with, perform]
  · simp [Chat.get, Chat.get_with, perform, deliver, LLM.add_history]

theorem reasoner_on_line_cases (l : List Char) (m m2 : Reasonal_message)
    (h : Reasoner.on_line l m = .ok m2) : ∃ v, m2 = m.reason v ∨ m2 = m.call v := by
  unfold Reasoner.on_line at h
  cases h1 : read_key l "reasoning_content".toList with
  | error e => rw [h1] at h; simp [bind, Except.bind] at h
  | ok v1 =>
    cases h0 : read_key l "content".toList with
    | error e => rw [h1, h0] at h; simp [bind, Except.bind] at h
    | ok v0 =>
      rw [h1, h0] at h
      simp only [bind, Except.bind, pure, Except.pure] at h
      cases h2 : del_quote (if (!(v1 == "null".toList)) = true then v1 else v0) with
      | error e => rw [h2] at h; simp at h
      | ok v2 =>
        rw [h2] at h
        dsimp only at h
        cases h3 : parse v2 with
        | error e => rw [h3] at h; simp at h
        | ok v3 =>
          rw [h3] at h
          simp only [Except.ok.injEq] at h
          subst h
          refine ⟨v3, ?_⟩
          split
          · exact Or.inl rfl
          · exact Or.inr rfl

theorem reasoner_on_line_buffers (l : List Char) (m m2 : Reasonal_message)
    (hm : buffers_match_calls m) (h : Reasoner.on_line l m = .ok m2) :
    buffers_match_calls m2 := by
  obtain ⟨v, hv | hv⟩ := reasoner_on_line_cases l m m2 h
  · subst hv
    simp [buffers_match_calls, Reasonal_message.reason, channel_text_append, hm.1, hm.2,
      channel_text]
  · subst hv
    simp [buffers_match_calls, Reasonal_message.call, channel_text_append, hm.1, hm.2,
      channel_text]

theorem reasoner_sink_buffers (conv : Int → Int → List Char → List Char) (fuel : Nat)
    (c : Option (List Char)) (m : Reasonal_message) (r : Run Reasonal_message)
    (hm : buffers_match_calls m) (h : Reasoner.call_back conv fuel c m = some r) :
    buffers_match_calls r.state := by
  cases c with
  | none =>
    simp only [Reasoner.call_back, Option.some.injEq] at h
    subst h; exact hm
  | some c =>
    exact line_loop_invariant buffers_match_calls Reasoner.on_line
      reasoner_on_line_buffers fuel _ _ m r hm h

/-- C17: whenever `get` of a `Reasoner` completes, the provider differs from the one before
the call only in that the history has grown by the single turn made of `question` and the
concatenation, in delivery order, of the fragments the callback received on the answer
channel; no reasoning fragment enters the history: the concatenation of the reasoning
fragments is what `last_reason` holds and `remem_reasoning` returns. -/
theorem reasoner_get_completed (conv : Int → Int → List Char → List Char) (fuel : Nat)
    (self : Reasoner) (transfer : Transfer) (question : List Char)
    (o : Outcome Reasoner (List Char × Bool))
    (h : Reasoner.get conv fuel self transfer question = some o) (hc : o.thrown = none) :
    o.provider.toLLM
      = { self.toLLM with
          history := self.history ++ [question, channel_text false o.calls] } ∧
    o.provider.last_reason = channel_text true o.calls ∧
    o.provider.remem_reasoning = channel_text true o.calls := by
  simp only [Reasoner.get, perform] at h
  cases hd : deliver (Reasoner.call_back conv fuel) transfer.deliveries
      ⟨self.prog_encode, [], [], []⟩ with
  | none => rw [hd] at h; cases h
  | some r =>
    have hb : buffers_match_calls r.state :=
      deliver_invariant buffers_match_calls _
        (fun c m r2 hm h2 => reasoner_sink_buffers conv fuel c m r2 hm h2)
        transfer.deliveries _ r (by simp [buffers_match_calls, channel_text]) hd
    rw [hd] at h
    obtain ⟨m, t⟩ := r
    cases t with
    | some e =>
      simp only [Option.some.injEq] at h
      subst h
      cases hc
    | none =>
      simp only [Option.some.injEq] at h
      subst h
      simp only [buffers_match_calls] at hb
      simp [Reasoner.remem_reasoning, LLM.add_history, hb.1, hb.2]

theorem reasoner_get_completed_witness :
    (⟨{ LLM.new [] [] [] 0 0 with history := ["Hi".toList, "Yes".toList] },
        "Hm".toList⟩ : Reasoner).toLLM
      = { (⟨LLM.new [] [] [] 0 0, "old".toList⟩ : Reasoner).toLLM with
          history := (⟨LLM.new [] [] [] 0 0, "old".toList⟩ : Reasoner).history ++
            ["Hi".toList, channel_text false [("Hm".toList, true), ("Yes".toList, false)]] } ∧
    "Hm".toList = channel_text true [("Hm".toList, true), ("Yes".toList, false)] ∧
    Reasoner.remem_reasoning
        ⟨{ LLM.new [] [] [] 0 0 with history := ["Hi".toList, "Yes".toList] }, "Hm".toList⟩
      = channel_text true [("Hm".toList, true), ("Yes".toList, false)] :=
  reasoner_get_completed (fun _ _ t => t) 4 ⟨LLM.new [] [] [] 0 0, "old".toList⟩
    ⟨[some (dual_line ("Hm".toList, true) ++ '\n' ::
        (dual_line ("Yes".toList, false) ++ ['\n']))], 0⟩ "Hi".toList
    ⟨⟨{ LLM.new [] [] [] 0 0 with history := ["Hi".toList, "Yes".toList] }, "Hm".toList⟩,
      [("Hm".toList, true), ("Yes".toList, false)], none⟩ (by decide) rfl

/-! ## The request body -/

theorem settings_text_flat (pairs : List (List Char × List Char)) :
    settings_text (flat_turns pairs)
      = .ok (pairs.map (fun kv => '"' :: kv.1 ++ "\": ".toList ++ kv.2 ++ [','])).flatten := by
  induction pairs with
  | nil => rfl
  | cons kv rest ih => simp [flat_turns, settings_text, ih, Except.map]

theorem history_text_flat (turns : List (List Char × List Char)) :
    history_text (flat_turns turns)
      = .ok (turns.map (fun t => message "user".toList t.1 ++ ',' ::
          (message "assistant".toList t.2 ++ [',']))).flatten := by
  induction turns with
  | nil => rfl
  | cons t rest ih => simp [flat_turns, history_text, ih, Except.map, message]

theorem comma_join_append_singleton (ms : List (List Char)) (m : List Char) :
    comma_join (ms ++ [m]) = (ms.map (fun x => x ++ [','])).flatten ++ m := by
  induction ms with
  | nil => simp [comma_join]
  | cons x xs ih =>
    cases xs with
    | nil => simp [comma_join]
    | cons y ys =>
      have : comma_join (x :: y :: (ys ++ [m]))
          = x ++ ',' :: comma_join (y :: (ys ++ [m])) := by
        simp [comma_join]
      simp only [List.cons_append] at ih ⊢
      rw [this, ih]
      simp

theorem flatten_map_pair_commas (turns : List (List Char × List Char)) :
    (((turns.map (fun t =>
        [message "user".toList t.1, message "assistant".toList t.2])).flatten).map
      (fun x => x ++ [','])).flatten
      = (turns.map (fun t => message "user".toList t.1 ++ ',' ::
          (message "assistant".toList t.2 ++ [',']))).flatten := by
  induction turns with
  | nil => rfl
  | cons t rest ih =>
    simp only [List.map_cons, List.flatten_cons, List.cons_append, List.nil_append,
      List.map_append, List.flatten_append] at ih ⊢
    rw [ih]
    simp

theorem length_messages (sys : List Char) (turns : List (List Char × List Char))
    (question : List Char) :
    (messages sys turns question).length
      = (if sys = [] then 0 else 1) + 2 * turns.length + 1 := by
  have h : ((turns.map (fun t =>
      [message "user".toList t.1, message "assistant".toList t.2])).flatten).length
        = 2 * turns.length := by
    induction turns with
    | nil => rfl
    | cons t rest ih =>
      simp only [List.map_cons, List.flatten_cons, List.length_append, ih, List.length_cons,
        List.length_nil]
      omega
  unfold messages
  rw [List.length_append, List.length_append, h]
  by_cases hs : sys = [] <;> simp [hs]

/-- C20: for every provider state whose settings and history vectors hold pairs, and every
question, `request_body` is the concatenation, in this order, of: the opening brace and the
`model` key with the model name; the `temperature` key exactly when
`0 <= temperature <= 2`; one `"key": value,` per extra setting in stored order; `"stream":
true,`; `"messages": [`; the messages, separated by commas - a system message with the
escaped system prompt exactly when it is not empty, per turn a user message with the escaped
question and an assistant message with the escaped answer, and the final user message with
the escaped question; and the closing `]` and brace.  The array has (1 if the system prompt
is not empty) + 2 * turns + 1 entries, and a freshly constructed provider has no
temperature key. -/
theorem request_body_shape (fmt : Rat → List Char) (self : LLM) (question : List Char)
    (pairs turns : List (List Char × List Char))
    (hs : self.settings = flat_turns pairs) (hh : self.history = flat_turns turns) :
    self.request_body fmt question
      = .ok ("\x7b\"model\": \"".toList ++ self.model ++ "\",".toList ++
          (if 0 ≤ self.temperature ∧ self.temperature ≤ 2 then
            "\"temperature\": ".toList ++ fmt self.temperature ++ [','] else []) ++
          (pairs.map (fun kv => '"' :: kv.1 ++ "\": ".toList ++ kv.2 ++ [','])).flatten ++
          "\"stream\": true,".toList ++ "\"messages\": [".toList ++
          comma_join (messages self.sys turns question) ++ "]\x7d".toList) ∧
    (messages self.sys turns question).length
      = (if self.sys = [] then 0 else 1) + 2 * turns.length + 1 ∧
    ¬ (0 ≤ (LLM.new self.url self.model self.key self.code_encode
        self.prog_encode).temperature) := by
  refine ⟨?_, length_messages _ _ _, by simp [LLM.new]⟩
  have hj : comma_join (messages self.sys turns question)
      = (if self.sys = [] then [] else message "system".toList self.sys ++ [',']) ++
        (turns.map (fun t => message "user".toList t.1 ++ ',' ::
          (message "assistant".toList t.2 ++ [',']))).flatten ++
        message "user".toList question := by
    unfold messages
    rw [comma_join_append_singleton, List.map_append, List.flatten_append,
      flatten_map_pair_commas]
    by_cases hsys : self.sys = [] <;> simp [hsys]
  rw [hj]
  simp only [LLM.request_body, hs, hh, settings_text_flat, history_text_flat]
  by_cases hsys : self.sys = [] <;> simp [hsys, message]

set_option maxRecDepth 8000 in
theorem request_body_shape_witness :
    LLM.request_body (fun _ => "1".toList)
        { LLM.new [] "m".toList [] 0 0 with
          sys := "be \"kind\"".toList, temperature := 1,
          settings := ["top_p".toList, "0.9".toList],
          history := ["q1".toList, "a\n1".toList] } "q2".toList
      = .ok ("\x7b\"model\": \"m\",\"temperature\": 1,\"top_p\": 0.9,".toList ++
          "\"stream\": true,\"messages\": [".toList ++
          "\x7b\"role\": \"system\", \"content\": \"be \\\"kind\\\"\"\x7d,".toList ++
          "\x7b\"role\": \"user\", \"content\": \"q1\"\x7d,".toList ++
          "\x7b\"role\": \"assistant\", \"content\": \"a\\n1\"\x7d,".toList ++
          "\x7b\"role\": \"user\", \"content\": \"q2\"\x7d]\x7d".toList) := by
  have h := (request_body_shape (fun _ => "1".toList)
    { LLM.new [] "m".toList [] 0 0 with
      sys := "be \"kind\"".toList, temperature := 1,
      settings := ["top_p".toList, "0.9".toList],
      history := ["q1".toList, "a\n1".toList] } "q2".toList
    [("top_p".toList, "0.9".toList)] [("q1".toList, "a\n1".toList)] rfl rfl).1
  rw [h]
  simp [messages, message, comma_join, escape, LLM.new]

/-! ## The history file -/

theorem read_file_loop_lines (conv : Int → Int → List Char → List Char) (file_encode : Int)
    (last : List Char) (hlast : '\n' ∉ last) (lines : List (List Char)) :
    ∀ (mode : Mode) (self : LLM) (fuel : Nat), (∀ l ∈ lines, '\n' ∉ l) →
      lines.length + 2 ≤ fuel →
      read_file_loop conv file_encode fuel
          (getline ⟨join_lines lines ++ last, false⟩ []).1
          (getline ⟨join_lines lines ++ last, false⟩ []).2 mode self
        = some (finish_read (scan_lines conv file_encode mode self (file_lines lines last))) := by
  induction lines with
  | nil =>
    intro mode self fuel _ hfuel
    obtain ⟨f, rfl⟩ : ∃ f, fuel = f + 2 := ⟨fuel - 2, by simp at hfuel; omega⟩
    simp only [join_lines, List.nil_append, getline_last last [] hlast, file_lines]
    by_cases hl : last = []
    · subst hl
      by_cases hm : mode = .user <;> simp [read_file_loop, scan_lines, finish_read, hm]
    · cases hr : read_file_line conv file_encode mode self last with
      | error e => simp [read_file_loop, scan_lines, finish_read, hl, hr]
      | ok p =>
        obtain ⟨m2, s2⟩ := p
        by_cases hm : m2 = .user <;>
          simp [read_file_loop, scan_lines, finish_read, hl, hr, getline, hm]
  | cons l ls ih =>
    intro mode self fuel hlines hfuel
    obtain ⟨f, rfl⟩ : ∃ f, fuel = f + 1 := ⟨fuel - 1, by simp at hfuel; omega⟩
    have hl := hlines l (List.mem_cons_self l ls)
    simp only [join_lines, List.cons_append, List.append_assoc, getline_line l _ [] hl,
      file_lines]
    cases hr : read_file_line conv file_encode mode self l with
    | error e => simp [read_file_loop, scan_lines, finish_read, hr]
    | ok p =>
      obtain ⟨m2, s2⟩ := p
      have := ih m2 s2 f (fun x hx => hlines x (List.mem_cons_of_mem l hx))
        (by simp at hfuel; omega)
      simp only [read_file_loop, hr, scan_lines, List.cons_append]
      simp only [file_lines] at this
      simpa using this

theorem read_file_line_error (conv : Int → Int → List Char → List Char) (file_encode : Int)
    (mode : Mode) (self : LLM) (line : List Char) (e : Failure)
    (hinv : block_open_ok mode self)
    (h : read_file_line conv file_encode mode self line = .error e) :
    e = .File_format_error := by
  unfold read_file_line at h
  split at h
  · split at h <;> simp at h; exact h.symm
  · split at h
    · split at h <;> simp at h; exact h.symm
    · split at h
      · split at h <;> simp at h; exact h.symm
      · cases mode with
        | system => simp at h
        | none => simp at h; exact h.symm
        | user =>
          have hne := hinv (Or.inl rfl)
          cases hg : self.history.getLast? with
          | none => exact absurd (List.getLast?_eq_none_iff.1 hg) hne
          | some b => simp [hg] at h
        | assistant =>
          have hne := hinv (Or.inr rfl)
          cases hg : self.history.getLast? with
          | none => exact absurd (List.getLast?_eq_none_iff.1 hg) hne
          | some b => simp [hg] at h

theorem read_file_line_ok (conv : Int → Int → List Char → List Char) (file_encode : Int)
    (mode mode2 : Mode) (self self2 : LLM) (line : List Char)
    (hinv : block_open_ok mode self)
    (h : read_file_line conv file_encode mode self line = .ok (mode2, self2)) :
    block_open_ok mode2 self2 := by
  unfold read_file_line at h
  split at h
  · split at h
    · simp at h
    · simp only [Except.ok.injEq, Prod.mk.injEq] at h
      obtain ⟨rfl, rfl⟩ := h
      intro hm; simp at hm
  · split at h
    · split at h
      · simp at h
      · simp only [Except.ok.injEq, Prod.mk.injEq] at h
        obtain ⟨rfl, rfl⟩ := h
        intro _; simp
    · split at h
      · split at h
        · simp at h
        · simp only [Except.ok.injEq, Prod.mk.injEq] at h
          obtain ⟨rfl, rfl⟩ := h
          intro _; simp
      · cases mode with
        | system =>
          simp only [Except.ok.injEq, Prod.mk.injEq] at h
          obtain ⟨rfl, rfl⟩ := h
          intro hm; simp at hm
        | none => simp at h
        | user =>
          cases hg : self.history.getLast? with
          | none => simp [hg] at h
          | some b =>
            simp only [hg, Except.ok.injEq, Prod.mk.injEq] at h
            obtain ⟨rfl, rfl⟩ := h
            intro _; simp
        | assistant =>
          cases hg : self.history.getLast? with
          | none => simp [hg] at h
          | some b =>
            simp only [hg, Except.ok.injEq, Prod.mk.injEq] at h
            obtain ⟨rfl, rfl⟩ := h
            intro _; simp

theorem read_file_line_error_iff (conv : Int → Int → List Char → List Char)
    (file_encode : Int) (mode : Mode) (self : LLM) (line : List Char)
    (hinv : block_open_ok mode self) :
    (∃ e, read_file_line conv file_encode mode self line = .error e) ↔
      violation mode line := by
  by_cases h1 : line = "system".toList
  · subst h1
    by_cases hm : mode = .user <;> simp [read_file_line, violation, is_marker, hm]
  · by_cases h2 : line = "user".toList
    · subst h2
      by_cases hm : mode = .user <;> simp [read_file_line, violation, is_marker, hm]
    · by_cases h3 : line = "assistant".toList
      · subst h3
        by_cases hm : mode = .user <;> simp [read_file_line, violation, is_marker, hm]
      · have h1n : ¬ line = ['s', 'y', 's', 't', 'e', 'm'] := h1
        have h2n : ¬ line = ['u', 's', 'e', 'r'] := h2
        have h3n : ¬ line = ['a', 's', 's', 'i', 's', 't', 'a', 'n', 't'] := h3
        cases mode with
        | system => simp [read_file_line, violation, is_marker, h1n, h2n, h3n]
        | none => simp [read_file_line, violation, is_marker, h1n, h2n, h3n]
        | user =>
          have hne := hinv (Or.inl rfl)
          cases hg : self.history.getLast? with
          | none => exact absurd (List.getLast?_eq_none_iff.1 hg) hne
          | some b => simp [read_file_line, violation, is_marker, h1n, h2n, h3n, hg]
        | assistant =>
          have hne := hinv (Or.inr rfl)
          cases hg : self.history.getLast? with
          | none => exact absurd (List.getLast?_eq_none_iff.1 hg) hne
          | some b => simp [read_file_line, violation, is_marker, h1n, h2n, h3n, hg]

theorem read_file_line_mode (conv : Int → Int → List Char → List Char)
    (file_encode : Int) (mode mode2 : Mode) (self self2 : LLM) (line : List Char)
    (h : read_file_line conv file_encode mode self line = .ok (mode2, self2)) :
    mode2 = next_block mode line := by
  by_cases h1 : line = "system".toList
  · subst h1
    by_cases hm : mode = .user <;> simp [read_file_line, next_block, hm] at h ⊢
    exact h.1.symm
  · by_cases h2 : line = "user".toList
    · subst h2
      by_cases hm : mode = .user <;> simp [read_file_line, next_block, hm] at h ⊢
      exact h.1.symm
    · by_cases h3 : line = "assistant".toList
      · subst h3
        by_cases hm : mode = .user <;> simp [read_file_line, next_block, hm] at h ⊢
        exact h.1.symm
      · have h1n : ¬ line = ['s', 'y', 's', 't', 'e', 'm'] := h1
        have h2n : ¬ line = ['u', 's', 'e', 'r'] := h2
        have h3n : ¬ line = ['a', 's', 's', 'i', 's', 't', 'a', 'n', 't'] := h3
        cases mode with
        | system =>
          simp [read_file_line, next_block, h1n, h2n, h3n] at h ⊢
          exact h.1.symm
        | none => simp [read_file_line, h1n, h2n, h3n] at h
        | user =>
          cases hg : self.history.getLast? with
          | none => simp [read_file_line, h1n, h2n, h3n, hg] at h
          | some b =>
            simp [read_file_line, next_block, h1n, h2n, h3n, hg] at h ⊢
            exact h.1.symm
        | assistant =>
          cases hg : self.history.getLast? with
          | none => simp [read_file_line, h1n, h2n, h3n, hg] at h
          | some b =>
            simp [read_file_line, next_block, h1n, h2n, h3n, hg] at h ⊢
            exact h.1.symm

theorem scan_lines_thrown (conv : Int → Int → List Char → List Char) (file_encode : Int)
    (lines : List (List Char)) :
    ∀ (mode : Mode) (self : LLM) (e : Failure), block_open_ok mode self →
      (scan_lines conv file_encode mode self lines).2 = some e →
      e = .File_format_error := by
  induction lines with
  | nil => intro mode self e _ h; simp [scan_lines] at h
  | cons l ls ih =>
    intro mode self e hinv h
    cases hr : read_file_line conv file_encode mode self l with
    | error e2 =>
      simp only [scan_lines, hr, Option.some.injEq] at h
      subst h
      exact read_file_line_error conv file_encode mode self l e2 hinv hr
    | ok p =>
      obtain ⟨m2, s2⟩ := p
      simp only [scan_lines, hr] at h
      exact ih m2 s2 e (read_file_line_ok conv file_encode mode m2 self s2 l hinv hr) h

theorem scan_lines_fails_iff (conv : Int → Int → List Char → List Char) (file_encode : Int)
    (lines : List (List Char)) :
    ∀ (mode : Mode) (self : LLM), block_open_ok mode self →
      ((scan_lines conv file_encode mode self lines).2 ≠ none ↔
        ∃ pre l post, lines = pre ++ l :: post ∧
          violation (pre.foldl next_block mode) l) := by
  induction lines with
  | nil => intro mode self _; simp [scan_lines]
  | cons l ls ih =>
    intro mode self hinv
    cases hr : read_file_line conv file_encode mode self l with
    | error e =>
      have hv := (read_file_line_error_iff conv file_encode mode self l hinv).1 ⟨e, hr⟩
      simp only [scan_lines, hr, ne_eq, reduceCtorEq, not_false_eq_true, true_iff]
      exact ⟨[], l, ls, rfl, hv⟩
    | ok p =>
      obtain ⟨m2, s2⟩ := p
      have hm := read_file_line_mode conv file_encode mode m2 self s2 l hr
      have hnv : ¬ violation mode l := by
        intro hv
        obtain ⟨e, he⟩ := (read_file_line_error_iff conv file_encode mode self l hinv).2 hv
        rw [hr] at he; cases he
      simp only [scan_lines, hr]
      rw [ih m2 s2 (read_file_line_ok conv file_encode mode m2 self s2 l hinv hr)]
      constructor
      · rintro ⟨pre, x, post, rfl, hv⟩
        exact ⟨l :: pre, x, post, rfl, by simpa [hm] using hv⟩
      · rintro ⟨pre, x, post, heq, hv⟩
        cases pre with
        | nil =>
          simp only [List.nil_append, List.cons.injEq] at heq
          obtain ⟨rfl, rfl⟩ := heq
          exact absurd hv hnv
        | cons y ys =>
          simp only [List.cons_append, List.cons.injEq] at heq
          obtain ⟨rfl, rfl⟩ := heq
          exact ⟨ys, x, post, rfl, by simpa [hm] using hv⟩

theorem scan_lines_final_mode (conv : Int → Int → List Char → List Char)
    (file_encode : Int) (lines : List (List Char)) :
    ∀ (mode : Mode) (self : LLM),
      (scan_lines conv file_encode mode self lines).2 = none →
      (scan_lines conv file_encode mode self lines).1.1 = lines.foldl next_block mode := by
  induction lines with
  | nil => intro mode self _; rfl
  | cons l ls ih =>
    intro mode self h
    cases hr : read_file_line conv file_encode mode self l with
    | error e => simp [scan_lines, hr] at h
    | ok p =>
      obtain ⟨m2, s2⟩ := p
      have hm := read_file_line_mode conv file_encode mode m2 self s2 l hr
      simp only [scan_lines, hr] at h ⊢
      rw [ih m2 s2 h, hm]
      rfl

theorem read_file_lines (conv : Int → Int → List Char → List Char) (fuel : Nat)
    (self : LLM) (file_encode : Int) (lines : List (List Char)) (last : List Char)
    (hlines : ∀ l ∈ lines, '\n' ∉ l) (hlast : '\n' ∉ last)
    (hfuel : lines.length + 2 ≤ fuel) :
    self.read_file conv fuel (some (join_lines lines ++ last)) file_encode
      = some (finish_read (scan_lines conv file_encode .none
          { self with sys := [], history := [] } (file_lines lines last))) := by
  simp only [LLM.read_file]
  exact read_file_loop_lines conv file_encode last hlast lines _ _ fuel hlines hfuel

theorem foldl_next_block_text (body : List (List Char)) (m : Mode)
    (hbody : ∀ l ∈ body, ¬ is_marker l) : body.foldl next_block m = m := by
  induction body with
  | nil => rfl
  | cons l ls ih =>
    have hl := hbody l (List.mem_cons_self l ls)
    have h1 : ¬ l = "system".toList := fun h => hl (Or.inl h)
    have h2 : ¬ l = "user".toList := fun h => hl (Or.inr (Or.inl h))
    have h3 : ¬ l = "assistant".toList := fun h => hl (Or.inr (Or.inr h))
    have hn : next_block m l = m := by
      simp only [next_block, if_neg h1, if_neg h2, if_neg h3]
    simp only [List.foldl_cons, hn]
    exact ih (fun x hx => hbody x (List.mem_cons_of_mem l hx))

theorem block_open_ok_start (self : LLM) : block_open_ok .none self := by
  intro h
  rcases h with h | h <;> cases h

/-- C15 fails on the code: on a freshly constructed provider, `read_file` of the file
`user`, `hello` (which ends inside a `user` block) fails with `File_format_error` and leaves
the single text `hello` in the history vector, whose length 1 is odd. -/
theorem read_file_leaves_odd_history :
    (LLM.new [] [] [] 0 0).read_file (fun _ _ t => t) 5 (some "user\nhello\n".toList) 0
      = some ⟨{ LLM.new [] [] [] 0 0 with history := ["hello".toList] },
          some .File_format_error⟩ ∧
    ["hello".toList].length % 2 = 1 := by
  decide

/-- C18, as stated, fails: the provider held the system prompt `S` and the turn `(q, a)`;
after the failed `read_file` the system prompt is empty and the history holds `hi`. -/
theorem read_file_failure_loses_state :
    ({ LLM.new [] [] [] 0 0 with
        sys := "S".toList, history := ["q".toList, "a".toList] } : LLM).read_file
        (fun _ _ t => t) 6
        (some "user\nhi\nuser\nx\n".toList) 0
      = some ⟨{ LLM.new [] [] [] 0 0 with sys := [], history := ["hi".toList] },
          some .File_format_error⟩ := by
  decide

/-- C18, amended: for every prior provider state and every existing history file in which a
`user` block (the marker line `user` and lines `body` that are no markers) is immediately
followed by another `user` marker line, `read_file` fails with `File_format_error`.  The
previously loaded system prompt and history are not kept: both are cleared before the first
line is read, so the provider after the failed call is the same whatever they were. -/
theorem read_file_user_after_user (conv : Int → Int → List Char → List Char) (fuel : Nat)
    (self : LLM) (file_encode : Int) (pre body post : List (List Char)) (last : List Char)
    (hlines : ∀ l ∈ pre ++ "user".toList :: (body ++ "user".toList :: post), '\n' ∉ l)
    (hlast : '\n' ∉ last) (hbody : ∀ l ∈ body, ¬ is_marker l)
    (hfuel : (pre ++ "user".toList :: (body ++ "user".toList :: post)).length + 2 ≤ fuel) :
    ∃ after : LLM,
      self.read_file conv fuel
          (some (join_lines (pre ++ "user".toList :: (body ++ "user".toList :: post)) ++ last))
          file_encode = some ⟨after, some .File_format_error⟩ ∧
      ∀ sys history, ({ self with sys := sys, history := history } : LLM).read_file conv fuel
          (some (join_lines (pre ++ "user".toList :: (body ++ "user".toList :: post)) ++ last))
          file_encode = some ⟨after, some .File_format_error⟩ := by
  have hinv := block_open_ok_start { self with sys := [], history := [] }
  have hsplit : file_lines (pre ++ "user".toList :: (body ++ "user".toList :: post)) last
      = (pre ++ "user".toList :: body) ++ "user".toList ::
          (post ++ (if last = [] then [] else [last])) := by
    simp [file_lines]
  have hviol : violation ((pre ++ "user".toList :: body).foldl next_block .none)
      "user".toList := by
    rw [List.foldl_append, List.foldl_cons, foldl_next_block_text body _ hbody]
    exact Or.inl ⟨Or.inl rfl, by simp [next_block]⟩
  have hfail := (scan_lines_fails_iff conv file_encode
    (file_lines (pre ++ "user".toList :: (body ++ "user".toList :: post)) last) .none
    { self with sys := [], history := [] } hinv).2 ⟨_, _, _, hsplit, hviol⟩
  cases ht : (scan_lines conv file_encode .none { self with sys := [], history := [] }
      (file_lines (pre ++ "user".toList :: (body ++ "user".toList :: post)) last)).2 with
  | none => exact absurd ht hfail
  | some e =>
    have he := scan_lines_thrown conv file_encode _ .none _ e hinv ht
    subst he
    have hres : ∀ x : LLM, { x with sys := [], history := [] }
          = ({ self with sys := [], history := [] } : LLM) →
        x.read_file conv fuel
          (some (join_lines (pre ++ "user".toList :: (body ++ "user".toList :: post)) ++ last))
          file_encode
          = some ⟨(scan_lines conv file_encode .none { self with sys := [], history := [] }
              (file_lines (pre ++ "user".toList :: (body ++ "user".toList :: post))
                last)).1.2, some .File_format_error⟩ := by
      intro x hx
      rw [read_file_lines conv fuel x file_encode _ last hlines hlast hfuel, hx]
      unfold finish_read
      rw [ht]
    exact ⟨_, hres self rfl, fun sys history => hres _ rfl⟩

theorem read_file_user_after_user_witness :
    ∃ after : LLM,
      ({ LLM.new [] [] [] 0 0 with
          sys := "S".toList, history := ["q".toList, "a".toList] } : LLM).read_file
          (fun _ _ t => t) 8
          (some (join_lines (["system".toList, "be nice".toList] ++ "user".toList ::
            (["hi".toList] ++ "user".toList :: ["x".toList])) ++ [])) 0
        = some ⟨after, some .File_format_error⟩ ∧
      ∀ sys history, ({ ({ LLM.new [] [] [] 0 0 with
          sys := "S".toList, history := ["q".toList, "a".toList] } : LLM) with
            sys := sys, history := history } : LLM).read_file (fun _ _ t => t) 8
          (some (join_lines (["system".toList, "be nice".toList] ++ "user".toList ::
            (["hi".toList] ++ "user".toList :: ["x".toList])) ++ [])) 0
        = some ⟨after, some .File_format_error⟩ :=
  read_file_user_after_user (fun _ _ t => t) 8 _ 0 ["system".toList, "be nice".toList]
    ["hi".toList] ["x".toList] [] (by decide) (by decide) (by decide) (by decide)

theorem newline_join_cons (t : List Char) (xs : List (List Char)) :
    newline_join (t :: xs) = t ++ (xs.map (fun x => '\n' :: x)).flatten := by
  induction xs generalizing t with
  | nil => simp [newline_join]
  | cons x xs ih => simp [newline_join, ih x]

theorem foldl_append_line_of_ne_nil (xs : List (List Char)) :
    ∀ t : List Char, t ≠ [] →
      xs.foldl append_line t = t ++ (xs.map (fun x => '\n' :: x)).flatten := by
  induction xs with
  | nil => intro t _; simp
  | cons x xs ih =>
    intro t ht
    have h1 : append_line t x = t ++ '\n' :: x := by simp [append_line, ht]
    simp only [List.foldl_cons, h1]
    rw [ih _ (by simp)]
    simp

theorem foldl_append_line_nil (xs : List (List Char)) :
    xs.foldl append_line [] = block_text xs := by
  induction xs with
  | nil => rfl
  | cons x xs ih =>
    by_cases hx : x = []
    · subst hx
      simpa [append_line, block_text] using ih
    · have h1 : append_line [] x = x := by simp [append_line]
      simp only [List.foldl_cons, h1, block_text]
      rw [foldl_append_line_of_ne_nil xs x hx]
      simp [List.dropWhile, hx, newline_join_cons]

theorem read_file_line_cases (conv : Int → Int → List Char → List Char)
    (file_encode : Int) (m m2 : Mode) (s s2 : LLM) (l : List Char)
    (h : read_file_line conv file_encode m s l = .ok (m2, s2)) :
    (l = "system".toList ∧ m ≠ .user ∧ m2 = .system ∧ s2 = { s with sys := [] }) ∨
    (l = "user".toList ∧ m ≠ .user ∧ m2 = .user ∧
      s2 = { s with history := s.history ++ [[]] }) ∨
    (l = "assistant".toList ∧ m = .user ∧ m2 = .assistant ∧
      s2 = { s with history := s.history ++ [[]] }) ∨
    (¬ is_marker l ∧ m = .system ∧ m2 = .system ∧
      s2 = { s with
        sys := append_line s.sys (encode conv file_encode s.prog_encode (c_str l)) }) ∨
    (¬ is_marker l ∧ (m = .user ∨ m = .assistant) ∧ m2 = m ∧
      ∃ b, s.history.getLast? = some b ∧
        s2 = { s with history := s.history.dropLast ++
          [append_line b (encode conv file_encode s.prog_encode (c_str l))] }) := by
  by_cases h1 : l = "system".toList
  · subst h1
    by_cases hm : m = .user
    · simp [read_file_line, hm] at h
    · simp only [read_file_line, if_true, if_neg hm, Except.ok.injEq, Prod.mk.injEq] at h
      exact Or.inl ⟨rfl, hm, h.1.symm, h.2.symm⟩
  · by_cases h2 : l = "user".toList
    · subst h2
      by_cases hm : m = .user
      · simp [read_file_line, hm] at h
      · simp only [read_file_line, if_neg h1, if_true, if_neg hm, Except.ok.injEq,
          Prod.mk.injEq] at h
        exact Or.inr (Or.inl ⟨rfl, hm, h.1.symm, h.2.symm⟩)
    · by_cases h3 : l = "assistant".toList
      · subst h3
        by_cases hm : m = .user
        · simp only [read_file_line, if_neg h1, if_neg h2, if_true, ne_eq, hm,
            not_true_eq_false, if_false, Except.ok.injEq, Prod.mk.injEq] at h
          exact Or.inr (Or.inr (Or.inl ⟨rfl, hm, h.1.symm, h.2.symm⟩))
        · simp [read_file_line, hm] at h
      · have hnm : ¬ is_marker l := by
          rintro (hh | hh | hh)
          · exact h1 hh
          · exact h2 hh
          · exact h3 hh
        simp only [read_file_line, if_neg h1, if_neg h2, if_neg h3] at h
        cases m with
        | system =>
          simp only [Except.ok.injEq, Prod.mk.injEq] at h
          exact Or.inr (Or.inr (Or.inr (Or.inl ⟨hnm, rfl, h.1.symm, h.2.symm⟩)))
        | none => simp at h
        | user =>
          cases hg : s.history.getLast? with
          | none => simp [hg] at h
          | some b =>
            simp only [hg, Except.ok.injEq, Prod.mk.injEq] at h
            exact Or.inr (Or.inr (Or.inr (Or.inr
              ⟨hnm, Or.inl rfl, h.1.symm, b, rfl, h.2.symm⟩)))
        | assistant =>
          cases hg : s.history.getLast? with
          | none => simp [hg] at h
          | some b =>
            simp only [hg, Except.ok.injEq, Prod.mk.injEq] at h
            exact Or.inr (Or.inr (Or.inr (Or.inr
              ⟨hnm, Or.inr rfl, h.1.symm, b, rfl, h.2.symm⟩)))

theorem blocks_aux_marker (l : List Char) (ls : List (List Char)) (h : is_marker l) :
    blocks_aux (l :: ls)
      = ([], (next_block .none l, (blocks_aux ls).1) :: (blocks_aux ls).2) := by
  simp only [blocks_aux, if_pos h]

theorem blocks_aux_text (l : List Char) (ls : List (List Char)) (h : ¬ is_marker l) :
    blocks_aux (l :: ls) = (l :: (blocks_aux ls).1, (blocks_aux ls).2) := by
  simp only [blocks_aux, if_neg h]

theorem absorb_nil (cv : List Char → List Char) (m : Mode) (h : List (List Char))
    (hne : (m = .user ∨ m = .assistant) → h ≠ []) : absorb cv m h [] = h := by
  by_cases hm : m = .user ∨ m = .assistant
  · have hh := hne hm
    simp only [absorb, if_pos hm, List.map_nil, List.foldl_nil]
    obtain ⟨init, x, rfl⟩ : ∃ init x, h = init ++ [x] :=
      ⟨h.dropLast, h.getLast hh, (List.dropLast_append_getLast hh).symm⟩
    simp
  · simp only [absorb, if_neg hm]

theorem scan_lines_history (conv : Int → Int → List Char → List Char) (file_encode : Int)
    (p : Int) (lines : List (List Char)) :
    ∀ (m : Mode) (s : LLM), s.prog_encode = p → block_open_ok m s →
      (scan_lines conv file_encode m s lines).2 = none →
      (scan_lines conv file_encode m s lines).1.2.history
        = absorb (fun l => encode conv file_encode p (c_str l)) m s.history
            (blocks_aux lines).1
          ++ ua_texts (fun l => encode conv file_encode p (c_str l)) (blocks_aux lines).2 := by
  induction lines with
  | nil =>
    intro m s _ hinv _
    simp [scan_lines, blocks_aux, ua_texts, absorb_nil _ m s.history hinv]
  | cons l ls ih =>
    intro m s hp hinv hok
    cases hr : read_file_line conv file_encode m s l with
    | error e => simp [scan_lines, hr] at hok
    | ok q =>
      obtain ⟨m2, s2⟩ := q
      have hinv2 := read_file_line_ok conv file_encode m m2 s s2 l hinv hr
      simp only [scan_lines, hr] at hok ⊢
      have hp2 : s2.prog_encode = p := by
        rcases read_file_line_cases conv file_encode m m2 s s2 l hr with
          ⟨_, _, _, rfl⟩ | ⟨_, _, _, rfl⟩ | ⟨_, _, _, rfl⟩ | ⟨_, _, _, rfl⟩ |
          ⟨_, _, _, _, _, rfl⟩ <;> exact hp
      rw [ih m2 s2 hp2 hinv2 hok]
      rcases read_file_line_cases conv file_encode m m2 s s2 l hr with
        ⟨hl, hm, rfl, rfl⟩ | ⟨hl, hm, rfl, rfl⟩ | ⟨hl, hm, rfl, rfl⟩ |
        ⟨hl, hm, rfl, rfl⟩ | ⟨hl, hm, rfl, b, hb, rfl⟩
      · rw [blocks_aux_marker l ls (Or.inl hl)]
        subst hl
        dsimp only
        rw [absorb_nil _ m s.history hinv]
        simp [absorb, ua_texts, next_block]
      · rw [blocks_aux_marker l ls (Or.inr (Or.inl hl))]
        subst hl
        dsimp only
        rw [absorb_nil _ m s.history hinv]
        simp [absorb, ua_texts, next_block]
      · rw [blocks_aux_marker l ls (Or.inr (Or.inr hl))]
        subst hl
        dsimp only
        rw [absorb_nil _ m s.history hinv]
        simp [absorb, ua_texts, next_block]
      · rw [blocks_aux_text l ls hl]
        subst hm
        simp [absorb]
      · rw [blocks_aux_text l ls hl]
        have hd : s.history.getLastD [] = b := by
          rw [List.getLastD_eq_getLast?, hb]; rfl
        simp [absorb, hm, hd, hb, hp]

theorem flat_turns_pair_up (n : Nat) :
    ∀ bs : List (Mode × List Char), bs.length ≤ n → paired (bs.map Prod.fst) →
      flat_turns (pair_up bs) = bs.map Prod.snd := by
  induction n with
  | zero =>
    intro bs hn _
    have : bs = [] := List.length_eq_zero.1 (Nat.le_zero.1 hn)
    subst this; rfl
  | succ n ih =>
    intro bs hn hp
    match bs, hn, hp with
    | [], _, _ => rfl
    | [(k, t)], _, hp => cases k <;> simp [paired] at hp
    | (k1, t1) :: (k2, t2) :: rest, hn, hp =>
      cases k1 <;> cases k2 <;> simp [paired] at hp
      simp only [pair_up, flat_turns, List.map_cons]
      rw [ih rest (by simp at hn; omega) hp]

theorem length_flat_turns (ts : List (List Char × List Char)) :
    (flat_turns ts).length = 2 * ts.length := by
  induction ts with
  | nil => rfl
  | cons t ts ih => simp [flat_turns, ih]; omega

theorem scan_lines_paired (conv : Int → Int → List Char → List Char) (file_encode : Int)
    (lines : List (List Char)) :
    ∀ (m : Mode) (s : LLM), (scan_lines conv file_encode m s lines).2 = none →
      (scan_lines conv file_encode m s lines).1.1 ≠ .user →
      paired ((if m = .user then [Mode.user] else []) ++
        (((blocks_aux lines).2.filter
          (fun b => decide (b.1 = .user ∨ b.1 = .assistant))).map Prod.fst)) := by
  induction lines with
  | nil =>
    intro m s _ hend
    simp only [scan_lines] at hend
    simp [blocks_aux, hend, paired]
  | cons l ls ih =>
    intro m s hok hend
    cases hr : read_file_line conv file_encode m s l with
    | error e => simp [scan_lines, hr] at hok
    | ok q =>
      obtain ⟨m2, s2⟩ := q
      simp only [scan_lines, hr] at hok hend
      have hih := ih m2 s2 hok hend
      rcases read_file_line_cases conv file_encode m m2 s s2 l hr with
        ⟨hl, hm, rfl, _⟩ | ⟨hl, hm, rfl, _⟩ | ⟨hl, hm, rfl, _⟩ |
        ⟨hl, hm, rfl, _⟩ | ⟨hl, hm, rfl, _⟩
      · rw [blocks_aux_marker l ls (Or.inl hl)]
        subst hl
        simpa [hm, next_block] using hih
      · rw [blocks_aux_marker l ls (Or.inr (Or.inl hl))]
        subst hl
        simpa [hm, next_block] using hih
      · rw [blocks_aux_marker l ls (Or.inr (Or.inr hl))]
        subst hl
        subst hm
        simpa [next_block, paired] using hih
      · rw [blocks_aux_text l ls hl]
        subst hm
        simpa using hih
      · rw [blocks_aux_text l ls hl]
        simpa using hih

theorem map_snd_dialogue_blocks (cv : List Char → List Char) (lines : List (List Char)) :
    (dialogue_blocks cv lines).map Prod.snd = ua_texts cv (blocks_aux lines).2 := by
  simp [dialogue_blocks, ua_texts, foldl_append_line_nil]

theorem map_fst_dialogue_blocks (cv : List Char → List Char) (lines : List (List Char)) :
    (dialogue_blocks cv lines).map Prod.fst
      = ((blocks_aux lines).2.filter
          (fun b => decide (b.1 = .user ∨ b.1 = .assistant))).map Prod.fst := by
  simp [dialogue_blocks]

/-- C19, as stated, fails in its last part: the `user` block of the file holds the lines
`""` and `q`, which joined by a newline give a text that starts with a newline, but
`read_file` stores `q`. -/
theorem read_file_drops_leading_empty_line :
    (LLM.new [] [] [] 0 0).read_file (fun _ _ t => t) 7
        (some "user\n\nq\nassistant\na\n".toList) 0
      = some ⟨{ LLM.new [] [] [] 0 0 with history := ["q".toList, "a".toList] }, none⟩ ∧
    newline_join [[], "q".toList] = "\nq".toList ∧
    "\nq".toList ≠ "q".toList := by
  decide

/-- C19, amended: for every existing history file, viewed as its list of lines, and
tracking the block opened by the latest marker line: `read_file` fails with
`File_format_error` exactly when the file is malformed, that is (a) a `user` or `system`
marker occurs while the open block is `user`, or (b) an `assistant` marker occurs while the
open block is not `user`, or (c) a line that is no marker occurs before any marker, or (d)
the file ends while the open block is `user`.  Otherwise it succeeds, and the history holds
exactly one `(question, answer)` pair per `user` / `assistant` block pair, in file order
(every such block is in a pair), each text being the block's lines after the code-page
conversion, joined by newlines with the empty lines at the head of the block left out. -/
theorem read_file_characterised (conv : Int → Int → List Char → List Char) (fuel : Nat)
    (self : LLM) (file_encode : Int) (lines : List (List Char)) (last : List Char)
    (hlines : ∀ l ∈ lines, '\n' ∉ l) (hlast : '\n' ∉ last)
    (hfuel : lines.length + 2 ≤ fuel) :
    ∃ r : Run LLM,
      self.read_file conv fuel (some (join_lines lines ++ last)) file_encode = some r ∧
      (r.thrown = some .File_format_error ↔ malformed (file_lines lines last)) ∧
      (¬ malformed (file_lines lines last) →
        r.thrown = none ∧
        r.state.history = flat_turns (pair_up (dialogue_blocks
          (fun l => encode conv file_encode self.prog_encode (c_str l))
          (file_lines lines last))) ∧
        (dialogue_blocks (fun l => encode conv file_encode self.prog_encode (c_str l))
            (file_lines lines last)).length
          = 2 * (pair_up (dialogue_blocks
              (fun l => encode conv file_encode self.prog_encode (c_str l))
              (file_lines lines last))).length) := by
  have hinv := block_open_ok_start { self with sys := [], history := [] }
  refine ⟨_, read_file_lines conv fuel self file_encode lines last hlines hlast hfuel, ?_, ?_⟩
  · have hiff := scan_lines_fails_iff conv file_encode (file_lines lines last) .none
      { self with sys := [], history := [] } hinv
    cases ht : (scan_lines conv file_encode .none { self with sys := [], history := [] }
        (file_lines lines last)).2 with
    | some e =>
      have he := scan_lines_thrown conv file_encode _ .none _ e hinv ht
      subst he
      have hex := hiff.1 (by rw [ht]; simp)
      unfold finish_read
      rw [ht]
      exact ⟨fun _ => Or.inl hex, fun _ => rfl⟩
    | none =>
      have hmode := scan_lines_final_mode conv file_encode _ .none _ ht
      have hnex : ¬ ∃ pre l post, file_lines lines last = pre ++ l :: post ∧
          violation (pre.foldl next_block .none) l := fun hex => (hiff.2 hex) ht
      unfold finish_read
      rw [ht]
      by_cases hm : (scan_lines conv file_encode .none
          { self with sys := [], history := [] } (file_lines lines last)).1.1 = .user
      · simp only [hm, if_true, true_iff]
        exact Or.inr (by rw [open_block, ← hmode]; exact hm)
      · simp only [hm, if_false]
        constructor
        · intro h; cases h
        · rintro (hex | hu)
          · exact absurd hex hnex
          · exact absurd (by rw [hmode]; exact hu) hm
  · intro hwell
    have hiff := scan_lines_fails_iff conv file_encode (file_lines lines last) .none
      { self with sys := [], history := [] } hinv
    have ht : (scan_lines conv file_encode .none { self with sys := [], history := [] }
        (file_lines lines last)).2 = none := by
      by_contra hne
      exact hwell (Or.inl (hiff.1 hne))
    have hmode := scan_lines_final_mode conv file_encode _ .none _ ht
    have hm : (scan_lines conv file_encode .none { self with sys := [], history := [] }
        (file_lines lines last)).1.1 ≠ .user := by
      intro hu
      exact hwell (Or.inr (by rw [open_block, ← hmode]; exact hu))
    have hpair := scan_lines_paired conv file_encode (file_lines lines last) .none
      { self with sys := [], history := [] } ht hm
    have hhist := scan_lines_history conv file_encode self.prog_encode
      (file_lines lines last) .none { self with sys := [], history := [] } rfl hinv ht
    have hp1 := flat_turns_pair_up _
      (dialogue_blocks (fun l => encode conv file_encode self.prog_encode (c_str l))
        (file_lines lines last)) (Nat.le_refl _)
      (by rw [map_fst_dialogue_blocks]; simpa using hpair)
    refine ⟨?_, ?_, ?_⟩
    · unfold finish_read
      rw [ht]
      simp only [hm, if_false]
    · have hstate : (finish_read (scan_lines conv file_encode .none
          { self with sys := [], history := [] } (file_lines lines last))).state
            = (scan_lines conv file_encode .none { self with sys := [], history := [] }
                (file_lines lines last)).1.2 := by
        unfold finish_read
        rw [ht]
        simp only [hm, if_false]
      rw [hstate, hhist, hp1, map_snd_dialogue_blocks]
      simp [absorb]
    · have := congrArg List.length hp1
      rw [length_flat_turns, List.length_map] at this
      exact this.symm

theorem read_file_characterised_witness :
    ∃ r : Run LLM,
      (LLM.new [] [] [] 0 0).read_file (fun _ _ t => t) 9
          (some (join_lines ["system".toList, "be nice".toList, "user".toList, "hi".toList,
            "there".toList, "assistant".toList] ++ "hello".toList)) 0 = some r ∧
      (r.thrown = some .File_format_error ↔
        malformed (file_lines ["system".toList, "be nice".toList, "user".toList,
          "hi".toList, "there".toList, "assistant".toList] "hello".toList)) ∧
      (¬ malformed (file_lines ["system".toList, "be nice".toList, "user".toList,
          "hi".toList, "there".toList, "assistant".toList] "hello".toList) →
        r.thrown = none ∧
        r.state.history = flat_turns (pair_up (dialogue_blocks
          (fun l => encode (fun _ _ t => t) 0 (LLM.new [] [] [] 0 0).prog_encode (c_str l))
          (file_lines ["system".toList, "be nice".toList, "user".toList, "hi".toList,
            "there".toList, "assistant".toList] "hello".toList))) ∧
        (dialogue_blocks
            (fun l => encode (fun _ _ t => t) 0 (LLM.new [] [] [] 0 0).prog_encode (c_str l))
            (file_lines ["system".toList, "be nice".toList, "user".toList, "hi".toList,
              "there".toList, "assistant".toList] "hello".toList)).length
          = 2 * (pair_up (dialogue_blocks
              (fun l => encode (fun _ _ t => t) 0 (LLM.new [] [] [] 0 0).prog_encode
                (c_str l))
              (file_lines ["system".toList, "be nice".toList, "user".toList, "hi".toList,
                "there".toList, "assistant".toList] "hello".toList))).length) :=
  read_file_characterised (fun _ _ t => t) 9 (LLM.new [] [] [] 0 0) 0
    ["system".toList, "be nice".toList, "user".toList, "hi".toList, "there".toList,
      "assistant".toList] "hello".toList (by decide) (by decide) (by decide)

/-! ## Parity of the history vector -/

theorem read_file_line_parity (conv : Int → Int → List Char → List Char)
    (file_encode : Int) (m m2 : Mode) (s s2 : LLM) (l : List Char)
    (hj : parity_ok m s) (h : read_file_line conv file_encode m s l = .ok (m2, s2)) :
    parity_ok m2 s2 := by
  rcases read_file_line_cases conv file_encode m m2 s s2 l h with
    ⟨_, hm, rfl, rfl⟩ | ⟨_, hm, rfl, rfl⟩ | ⟨_, hm, rfl, rfl⟩ |
    ⟨_, hm, rfl, rfl⟩ | ⟨_, hm, rfl, b, hb, rfl⟩
  · exact ⟨fun h => (by cases h), fun _ => hj.2 hm⟩
  · refine ⟨fun _ => ?_, fun h => absurd rfl h⟩
    have := hj.2 hm
    simp only [List.length_append, List.length_singleton]
    omega
  · refine ⟨fun h => (by cases h), fun _ => ?_⟩
    have := hj.1 hm
    simp only [List.length_append, List.length_singleton]
    omega
  · subst hm
    exact ⟨fun h => (by cases h), fun hn => hj.2 hn⟩
  · have hne : s.history ≠ [] := by
      intro h0
      rw [h0] at hb
      cases hb
    have hlen : (s.history.dropLast ++
        [append_line b (encode conv file_encode s.prog_encode (c_str l))]).length
          = s.history.length := by
      have := List.length_pos.2 hne
      simp only [List.length_append, List.length_dropLast, List.length_singleton]
      omega
    exact ⟨fun hu => by rw [hlen]; exact hj.1 hu, fun hn => by rw [hlen]; exact hj.2 hn⟩

theorem read_file_loop_parity (conv : Int → Int → List Char → List Char)
    (file_encode : Int) (fuel : Nat) :
    ∀ (f_str : istringstream) (line : List Char) (mode : Mode) (self : LLM) (r : Run LLM),
      parity_ok mode self →
      read_file_loop conv file_encode fuel f_str line mode self = some r →
      r.thrown = none → r.state.history.length % 2 = 0 := by
  induction fuel with
  | zero => intro f_str line mode self r _ h; simp [read_file_loop] at h
  | succ f ih =>
    intro f_str line mode self r hj h hnone
    by_cases hexit : line = [] ∧ f_str.eofbit = true
    · simp only [read_file_loop, if_pos hexit] at h
      by_cases hm : mode = .user
      · simp only [if_pos hm, Option.some.injEq] at h
        subst h
        cases hnone
      · simp only [if_neg hm, Option.some.injEq] at h
        subst h
        exact hj.2 hm
    · simp only [read_file_loop, if_neg hexit] at h
      cases hr : read_file_line conv file_encode mode self line with
      | error e =>
        rw [hr] at h
        simp only [Option.some.injEq] at h
        subst h
        cases hnone
      | ok q =>
        obtain ⟨m2, s2⟩ := q
        rw [hr] at h
        exact ih _ _ m2 s2 r
          (read_file_line_parity conv file_encode mode m2 self s2 line hj hr) h hnone

/-- The operations that keep the flat history vector at an even length: `add_history`,
`clear_history`, `get` of a `Chat` and of a `Reasoner` (completed or failed), and a
`read_file` that succeeds or does not find the file. -/
theorem history_even_preserved (conv : Int → Int → List Char → List Char) (fuel : Nat)
    (self : LLM) (heven : self.history.length % 2 = 0) :
    (∀ q a, (self.add_history q a).history.length % 2 = 0) ∧
    self.clear_history.history.length % 2 = 0 ∧
    (∀ transfer question o, Chat.get conv fuel self transfer question = some o →
      o.provider.history.length % 2 = 0) ∧
    (∀ last_reason transfer question o,
      Reasoner.get conv fuel ⟨self, last_reason⟩ transfer question = some o →
      o.provider.history.length % 2 = 0) ∧
    (∀ file_encode r, self.read_file conv fuel none file_encode = some r →
      r.state.history.length % 2 = 0) ∧
    (∀ content file_encode r,
      self.read_file conv fuel (some content) file_encode = some r →
      r.thrown = none → r.state.history.length % 2 = 0) := by
  refine ⟨?_, rfl, ?_, ?_, ?_, ?_⟩
  · intro q a
    simp only [LLM.add_history, List.length_append, List.length_cons, List.length_nil]
    omega
  · intro transfer question o h
    simp only [Chat.get, Chat.get_with] at h
    cases hp : perform (Chat.call_back conv fuel) transfer ⟨self.prog_encode, [], []⟩ with
    | none => rw [hp] at h; cases h
    | some r =>
      rw [hp] at h
      obtain ⟨m, t⟩ := r
      cases t with
      | some e =>
        simp only [Option.some.injEq] at h
        subst h; exact heven
      | none =>
        simp only [Option.some.injEq] at h
        subst h
        simp only [LLM.add_history, List.length_append, List.length_cons, List.length_nil]
        omega
  · intro last_reason transfer question o h
    simp only [Reasoner.get] at h
    cases hp : perform (Reasoner.call_back conv fuel) transfer
        ⟨self.prog_encode, [], [], []⟩ with
    | none => rw [hp] at h; cases h
    | some r =>
      rw [hp] at h
      obtain ⟨m, t⟩ := r
      cases t with
      | some e =>
        simp only [Option.some.injEq] at h
        subst h; exact heven
      | none =>
        simp only [Option.some.injEq] at h
        subst h
        simp only [LLM.add_history, List.length_append, List.length_cons, List.length_nil]
        omega
  · intro file_encode r h
    simp only [LLM.read_file, Option.some.injEq] at h
    subst h; exact heven
  · intro content file_encode r h hnone
    simp only [LLM.read_file] at h
    have hj : parity_ok .none ({ self with sys := [], history := [] } : LLM) :=
      ⟨fun h => (by cases h), fun _ => rfl⟩
    exact read_file_loop_parity conv file_encode fuel _ _ _ _ r hj h hnone

/-! ## The decoder -/

theorem parse_eq_reference (n : Nat) :
    ∀ t : List Char, t.length ≤ n → parse t = .ok (parse_reference t) := by
  induction n with
  | zero =>
    intro t hn
    have : t = [] := List.length_eq_zero.1 (Nat.le_zero.1 hn)
    subst this
    rfl
  | succ n ih =>
    intro t hn
    match t, hn with
    | [], _ => rfl
    | [c], _ =>
      by_cases hc : c = '\\'
      · subst hc
        rfl
      · simp [parse, parse_reference, hc, Except.map]
    | c :: d :: ds, hn =>
      have hds : ds.length ≤ n := by simp at hn; omega
      have hdds : (d :: ds).length ≤ n := by simp at hn ⊢; omega
      by_cases hc : c = '\\'
      · subst hc
        by_cases h1 : d = 'n'
        · subst h1
          simp [parse, parse_reference, ih ds hds, Except.map]
        · by_cases h2 : d = '\\'
          · subst h2
            simp [parse, parse_reference, ih ds hds, Except.map]
          · by_cases h3 : d = '"'
            · subst h3
              simp [parse, parse_reference, ih ds hds, Except.map]
            · simp [parse, parse_reference, ih (d :: ds) hdds, h1, h2, h3, Except.map]
      · rw [parse_cons_of_ne c (d :: ds) hc, ih (d :: ds) hdds]
        simp [parse_reference, hc, Except.map]

theorem parse_reference_plain (n : Nat) :
    ∀ t : List Char, t.length ≤ n →
      (∀ pre c post, t = pre ++ '\\' :: c :: post → c ≠ 'n' ∧ c ≠ '\\' ∧ c ≠ '"') →
      parse_reference t = t := by
  induction n with
  | zero =>
    intro t hn _
    have : t = [] := List.length_eq_zero.1 (Nat.le_zero.1 hn)
    subst this; rfl
  | succ n ih =>
    intro t hn hplain
    match t, hn, hplain with
    | [], _, _ => rfl
    | [c], _, _ => rfl
    | c :: d :: ds, hn, hplain =>
      have hdds : (d :: ds).length ≤ n := by simp at hn ⊢; omega
      have htail : parse_reference (d :: ds) = d :: ds :=
        ih (d :: ds) hdds (fun pre x post hx => hplain (c :: pre) x post (by simp [hx]))
      by_cases hc : c = '\\'
      · subst hc
        have hd := hplain [] d ds rfl
        simp [parse_reference, hd.1, hd.2.1, hd.2.2, htail]
      · simp [parse_reference, hc, htail]

/-- C22: on every text `t`, `parse` returns what the reference decoder gives: scanning left
to right, backslash-n, backslash-backslash and backslash-quote are replaced by a newline, a
backslash and a double quote, every other escape sequence passes through with its
backslash (a backslash that ends the text included).  In particular a text in which no
backslash is followed by `n`, a backslash or a double quote is returned unchanged, whether
or not it ends in a backslash. -/
theorem parse_decodes (t : List Char) :
    parse t = .ok (parse_reference t) ∧
    (¬ ['\\', 'n'] <:+: t → ¬ ['\\', '\\'] <:+: t → ¬ ['\\', '"'] <:+: t →
      parse t = .ok t) := by
  have h1 : parse t = .ok (parse_reference t) := parse_eq_reference t.length t (Nat.le_refl _)
  refine ⟨h1, ?_⟩
  intro hn hb hq
  have hplain : ∀ pre c post, t = pre ++ '\\' :: c :: post →
      c ≠ 'n' ∧ c ≠ '\\' ∧ c ≠ '"' := by
    intro pre c post ht
    refine ⟨?_, ?_, ?_⟩
    · rintro rfl
      exact hn ⟨pre, post, by simp [ht]⟩
    · rintro rfl
      exact hb ⟨pre, post, by simp [ht]⟩
    · rintro rfl
      exact hq ⟨pre, post, by simp [ht]⟩
  rw [h1, parse_reference_plain t.length t (Nat.le_refl _) hplain]

theorem parse_decodes_witness :
    parse "a\\tb\\\\c\\nd\\\"\\\\".toList = .ok "a\\tb\\c\nd\"\\".toList ∧
    parse "a\\".toList = .ok "a\\".toList ∧
    parse "a\\tb\\ c\\".toList = .ok "a\\tb\\ c\\".toList :=
  ⟨(parse_decodes "a\\tb\\\\c\\nd\\\"\\\\".toList).1.trans (by rfl),
    (parse_decodes "a\\".toList).1.trans (by rfl),
    (parse_decodes "a\\tb\\ c\\".toList).2 (by decide) (by decide) (by decide)⟩

/-! ## The escape flag of `read_key` -/

/-- C24: the escape flag of `read_key` is not cleared by a space (nor by `:`, `,` or a
closing brace): inside quotes, with the flag set, these characters are appended and the
scan goes on with the flag still set.  On the line
`{"content": "a\ ", "x": 1}` the double quote after the space is therefore taken as
escaped, the value is not closed, and `read_key` returns `"a\ ", "x": 1}` through the end
of the line rather than `"a\ "`. -/
theorem read_key_escape_flag_kept_by_space :
    (∀ rest : List Char,
      read_key_loop (' ' :: rest) true true = ' ' :: read_key_loop rest true true ∧
      read_key_loop (':' :: rest) true true = ':' :: read_key_loop rest true true ∧
      read_key_loop (',' :: rest) true true = ',' :: read_key_loop rest true true ∧
      read_key_loop ('}' :: rest) true true = '}' :: read_key_loop rest true true) ∧
    read_key "\x7b\"content\": \"a\\ \", \"x\": 1\x7d".toList "content".toList
      = .ok "\"a\\ \", \"x\": 1\x7d".toList ∧
    read_key "\x7b\"content\": \"a\\ \", \"x\": 1\x7d".toList "content".toList
      ≠ .ok "\"a\\ \"".toList := by
  refine ⟨fun rest => ⟨?_, ?_, ?_, ?_⟩, by rfl, ?_⟩
  · simp [read_key_loop]
  · simp [read_key_loop]
  · simp [read_key_loop]
  · simp [read_key_loop]
  · intro h
    have h2 : read_key "\x7b\"content\": \"a\\ \", \"x\": 1\x7d".toList "content".toList
        = .ok "\"a\\ \", \"x\": 1\x7d".toList := by rfl
    rw [h2] at h
    exact absurd (Except.ok.inj h) (by decide)

/-! ## Failures of the token pipeline -/

/-- C26: the step after `read_key` can fail.  On the line `{"content"}`, which has no error
marker, `read_key` finds the field `content` and returns the empty text as its value;
`del_quote` then calls `substr(1, ...)` on an empty string and raises `out_of_range`.  The
`try` block of `Chat::call_back` leaves with that failure, the sink does not catch it, and
so on non-null contents the sink raises a failure that is not an `LLM_error`. -/
theorem chat_on_line_pipeline_fails (m : Chat_message) :
    ¬ error_marker "\x7b\"content\"\x7d".toList ∧
    read_key "\x7b\"content\"\x7d".toList "content".toList = .ok [] ∧
    del_quote [] = .error .out_of_range ∧
    Chat.on_line "content".toList "\x7b\"content\"\x7d".toList m = .error .out_of_range ∧
    Chat.call_back (fun _ _ t => t) 3 (some "\x7b\"content\"\x7d\n".toList) ⟨0, [], []⟩
      = some ⟨⟨0, [], []⟩, some .out_of_range⟩ := by
  refine ⟨by decide, by rfl, by rfl, by rfl, by decide⟩

/-! ## The line loop on an unterminated last line -/

theorem line_loop_at_eof_spins {σ : Type} (body : List Char → σ → Except Failure σ)
    (line : List Char) (hne : line ≠ []) (hbody : ∀ m, ∃ m2, body line m = .ok m2) :
    ∀ (fuel : Nat) (m : σ), line_loop body fuel ⟨[], true⟩ line m = none := by
  intro fuel
  induction fuel with
  | zero => intro m; rfl
  | succ n ih =>
    intro m
    obtain ⟨m2, h2⟩ := hbody m
    have hg : getline ⟨[], true⟩ line = (⟨[], true⟩, line) := by simp [getline]
    simp only [line_loop, if_neg hne, h2, hg]
    exact ih m2

theorem line_loop_unterminated_spins {σ : Type} (body : List Char → σ → Except Failure σ)
    (line : List Char) (hne : line ≠ []) (hnl : '\n' ∉ line)
    (hbody : ∀ m, ∃ m2, body line m = .ok m2) (fuel : Nat) (m : σ) :
    line_loop body fuel ⟨line, false⟩ [] m = none := by
  cases fuel with
  | zero => rfl
  | succ n =>
    simp only [line_loop, if_true, getline_last line [] hnl]
    simpa using line_loop_at_eof_spins body line hne hbody n m

theorem content_line_ne_nil (E : List Char) : content_line E ≠ [] := by
  simp [content_line]

theorem dual_line_ne_nil (t : List Char × Bool) : dual_line t ≠ [] := by
  obtain ⟨x, b⟩ := t
  cases b <;> simp [dual_line]

theorem newline_not_mem_dual_line (t : List Char × Bool) : '\n' ∉ dual_line t := by
  obtain ⟨x, b⟩ := t
  cases b <;> simp [dual_line, newline_not_mem_escape]

/-- C25: the line loop of the chunk sinks does not terminate on a chunk whose last line is
not newline-terminated and carries the target field.  For every token `x` the chunk made of
the single line `{"content": "E(x)"}` without a final newline (provided the line has no
error marker) exhausts every amount of fuel in `Chat::call_back`: after the line is read
the stream is at end of file, `getline` leaves `line` as it is, and the same line is
processed again in every round.  The same holds for `Fim_base::call_back` on the chunk
`{"text": "a"}` and for `Reasoner::call_back` on a single unterminated line carrying both
of its fields. -/
theorem call_back_unterminated_line_never_returns (fuel : Nat) (x : List Char)
    (t : List Char × Bool) (m : Chat_message) (r : Reasonal_message)
    (hx : ¬ error_marker (content_line (escape x))) (ht : ¬ error_marker (dual_line t)) :
    Chat.call_back (fun _ _ s => s) fuel (some (content_line (escape x))) m = none ∧
    Fim_base.call_back (fun _ _ s => s) fuel (some "\x7b\"text\": \"a\"\x7d".toList) m
      = none ∧
    Reasoner.call_back (fun _ _ s => s) fuel (some (dual_line t)) r = none := by
  have he : ∀ (a : Int) (s : List Char), encode (fun _ _ s => s) CP_UTF8 a s = s := by
    intro a s
    unfold encode
    split <;> rfl
  refine ⟨?_, ?_, ?_⟩
  · simp only [Chat.call_back, he]
    exact line_loop_unterminated_spins _ _ (content_line_ne_nil _)
      (newline_not_mem_content_line x) (fun m1 => ⟨_, on_line_content_line x m1 hx⟩) fuel m
  · simp only [Fim_base.call_back, he]
    exact line_loop_unterminated_spins _ _ (by decide) (by decide)
      (fun m1 => ⟨m1.call "a".toList, by rfl⟩) fuel m
  · simp only [Reasoner.call_back, he]
    exact line_loop_unterminated_spins _ _ (dual_line_ne_nil t)
      (newline_not_mem_dual_line t) (fun m1 => ⟨_, reasoner_on_line_dual_line t m1 ht⟩) fuel r

theorem call_back_unterminated_line_never_returns_witness :
    ¬ error_marker (content_line (escape "a".toList)) ∧
    ¬ error_marker (dual_line ("a".toList, false)) ∧
    content_line (escape "a".toList) = "\x7b\"content\": \"a\"\x7d".toList ∧
    Chat.call_back (fun _ _ s => s) 1000 (some (content_line (escape "a".toList)))
      ⟨0, [], []⟩ = none ∧
    Fim_base.call_back (fun _ _ s => s) 1000 (some "\x7b\"text\": \"a\"\x7d".toList)
      ⟨0, [], []⟩ = none ∧
    Reasoner.call_back (fun _ _ s => s) 1000 (some (dual_line ("a".toList, false)))
      ⟨0, [], [], []⟩ = none :=
  ⟨by decide, by decide, by decide,
    call_back_unterminated_line_never_returns 1000 "a".toList ("a".toList, false)
      ⟨0, [], []⟩ ⟨0, [], [], []⟩ (by decide) (by decide)⟩

/-! ## Lenient end of line -/

theorem read_key_loop_lenient (rest : List Char) :
    ∀ (inside escape_mode : Bool),
      (∀ d, d = ' ' ∨ d = ':' ∨ d = ',' ∨ d = '}' → ¬ ['\\', d] <:+: rest) →
      (escape_mode = true → ∀ d ∈ rest.head?, ¬ (d = ' ' ∨ d = ':' ∨ d = ',' ∨ d = '}')) →
      (∀ p ∈ mark_outside rest inside escape_mode, p.2 = true → p.1 ≠ ',' ∧ p.1 ≠ '}') →
      read_key_loop rest inside escape_mode
        = strip_outside (mark_outside rest inside escape_mode) := by
  induction rest with
  | nil => intro _ _ _ _ _; rfl
  | cons c cs ih =>
    intro inside escape_mode hfree hhead h
    have h0 := h (c, !inside) (by simp [mark_outside])
    have hfree2 : ∀ d, d = ' ' ∨ d = ':' ∨ d = ',' ∨ d = '}' → ¬ ['\\', d] <:+: cs :=
      fun d hd hin => hfree d hd (List.infix_cons hin)
    have hnext : ∀ e, (e = true → c = '\\') →
        (∀ p ∈ mark_outside cs (one_shot_step c inside escape_mode).1 e,
          p.2 = true → p.1 ≠ ',' ∧ p.1 ≠ '}') →
        read_key_loop cs (one_shot_step c inside escape_mode).1 e
          = strip_outside (mark_outside cs (one_shot_step c inside escape_mode).1 e) := by
      intro e he hp
      refine ih _ e hfree2 ?_ hp
      intro het d hd hspecial
      have hc := he het
      subst hc
      cases cs with
      | nil => simp at hd
      | cons x xs =>
        simp only [List.head?_cons, Option.mem_def, Option.some.injEq] at hd
        subst hd
        exact hfree x hspecial ⟨[], xs, rfl⟩
    have ih2 := hnext (one_shot_step c inside escape_mode).2
    have hspec : escape_mode = true → ¬ (c = ' ' ∨ c = ':' ∨ c = ',' ∨ c = '}') :=
      fun he => hhead he c (by simp)
    have htail : ∀ p ∈ mark_outside cs (one_shot_step c inside escape_mode).1
        (one_shot_step c inside escape_mode).2, p.2 = true → p.1 ≠ ',' ∧ p.1 ≠ '}' :=
      fun p hp => h p (by simp [mark_outside, hp])
    by_cases h1 : c = '\\'
    · subst h1
      cases escape_mode <;>
        simpa [read_key_loop, mark_outside, strip_outside, one_shot_step] using
          ih2 (by simp [one_shot_step]) htail
    · by_cases h2 : c = '"'
      · subst h2
        cases escape_mode <;>
          simpa [read_key_loop, mark_outside, strip_outside, one_shot_step] using
            ih2 (by simp [one_shot_step]) htail
      · by_cases h3 : c = ' ' ∨ c = ':'
        · have he : escape_mode = false := by
            cases escape_mode
            · rfl
            · exact absurd (h3.elim Or.inl (fun e => Or.inr (Or.inl e))) (hspec rfl)
          subst he
          cases inside <;> rcases h3 with h3 | h3 <;> subst h3 <;>
            simpa [read_key_loop, mark_outside, strip_outside, one_shot_step] using
              ih2 (by simp [one_shot_step]) htail
        · by_cases h4 : c = ',' ∨ c = '}'
          · have he : escape_mode = false := by
              cases escape_mode
              · rfl
              · exact absurd (h4.elim (fun e => Or.inr (Or.inr (Or.inl e)))
                  (fun e => Or.inr (Or.inr (Or.inr e)))) (hspec rfl)
            subst he
            cases inside
            · exact absurd h4 (by simpa [not_or] using h0)
            · rcases h4 with h4 | h4 <;> subst h4 <;>
                simpa [read_key_loop, mark_outside, strip_outside, one_shot_step] using
                  ih2 (by simp [one_shot_step]) htail
          · have h3a : c ≠ ' ' := fun e => h3 (Or.inl e)
            have h3b : c ≠ ':' := fun e => h3 (Or.inr e)
            have h4a : c ≠ ',' := fun e => h4 (Or.inl e)
            have h4b : c ≠ '}' := fun e => h4 (Or.inr e)
            cases escape_mode <;>
              simpa [read_key_loop, mark_outside, strip_outside, one_shot_step, h1, h2, h3a,
                h3b, h4a, h4b] using ih2 (by simp [one_shot_step, h1, h2]) htail

theorem read_key_lenient (line key : List Char) (hm : ¬ error_marker line)
    (hk : quote key <:+: line)
    (hfree : ∀ d, d = ' ' ∨ d = ':' ∨ d = ',' ∨ d = '}' →
      ¬ ['\\', d] <:+: after_key line key)
    (hs : ∀ p ∈ mark_outside (after_key line key) false false,
      p.2 = true → p.1 ≠ ',' ∧ p.1 ≠ '}') :
    read_key line key = .ok (strip_outside (mark_outside (after_key line key) false false)) := by
  rw [read_key_of_no_marker _ _ hm]
  unfold after_key at hs hfree ⊢
  cases hf : find line (quote key) with
  | none => exact absurd hk ((find_eq_none_iff _ _).1 hf)
  | some i =>
    rw [hf] at hs hfree
    simp only at hs hfree ⊢
    rw [read_key_loop_lenient _ false false hfree (fun h => (by cases h)) hs]

/-- C23: on the line `{"content": "a\ "x" , y`, which has no error marker and contains the
quoted field name, no comma and no closing brace lies outside quotes after the name when
quotes are read with the one-shot escape flag of the specification: the value `"a\ "` is
closed by its second double quote and the only comma stands inside the quotes opened after
`x`.  The claim promises the remainder of the line without its outside spaces and colons,
`"a\ "x" , y`.  `read_key` keeps the escape flag across the space, takes the second double
quote as escaped, is outside quotes when it reaches the comma and returns `"a\ "x"`. -/
theorem read_key_stops_at_quoted_comma :
    ¬ error_marker "\x7b\"content\": \"a\\ \"x\" , y".toList ∧
    quote "content".toList <:+: "\x7b\"content\": \"a\\ \"x\" , y".toList ∧
    after_key "\x7b\"content\": \"a\\ \"x\" , y".toList "content".toList
      = ": \"a\\ \"x\" , y".toList ∧
    (∀ p ∈ mark_outside ": \"a\\ \"x\" , y".toList false false,
      p.2 = true → p.1 ≠ ',' ∧ p.1 ≠ '}') ∧
    strip_outside (mark_outside ": \"a\\ \"x\" , y".toList false false)
      = "\"a\\ \"x\" , y".toList ∧
    read_key "\x7b\"content\": \"a\\ \"x\" , y".toList "content".toList
      = .ok "\"a\\ \"x\"".toList := by
  refine ⟨by decide, by decide, by decide, by decide, by decide, by rfl⟩

/-! ## Settings -/

theorem flat_turns_concat (a b : List (List Char × List Char)) :
    flat_turns (a ++ b) = flat_turns a ++ flat_turns b := by
  induction a with
  | nil => rfl
  | cons t ts ih => simp [flat_turns, ih]

theorem set_scan_miss (p v : List Char) :
    ∀ pairs : List (List Char × List Char), p ∉ pairs.map Prod.fst →
      set_scan (flat_turns pairs) p v = .ok none := by
  intro pairs
  induction pairs with
  | nil => intro _; rfl
  | cons t ts ih =>
    intro h
    have h1 : ¬ t.1 = p := fun e => h (by simp [e])
    have h2 : p ∉ ts.map Prod.fst := fun e => h (by simp at e ⊢; exact Or.inr e)
    simp [flat_turns, set_scan, h1, ih h2, Except.map]

theorem set_scan_hit (p old v : List Char) (post : List (List Char × List Char)) :
    ∀ pre : List (List Char × List Char), p ∉ pre.map Prod.fst →
      set_scan (flat_turns (pre ++ (p, old) :: post)) p v
        = .ok (some (flat_turns (pre ++ (p, v) :: post))) := by
  intro pre
  induction pre with
  | nil => intro _; simp [flat_turns, set_scan]
  | cons t ts ih =>
    intro h
    have h1 : ¬ t.1 = p := fun e => h (by simp [e])
    have h2 : p ∉ ts.map Prod.fst := fun e => h (by simp at e ⊢; exact Or.inr e)
    simp [flat_turns, set_scan, h1, ih h2, Except.map]

theorem set_of_not_reserved (stod : List Char → Except Failure Rat) (s : LLM)
    (p v : List Char) (q : Bool) (hp : ¬ reserved p) :
    LLM.set stod s p v q =
      match set_scan s.settings p (stored_value v q) with
      | .error e => .error e
      | .ok (some settings) => .ok { s with settings := settings }
      | .ok none => .ok { s with settings := s.settings ++ [p, stored_value v q] } := by
  simp only [reserved, not_or] at hp
  obtain ⟨h1, h2, h3, h4, h5, h6⟩ := hp
  simp only [LLM.set, if_neg h1, if_neg h2, if_neg h3, if_neg h4, if_neg h5, if_neg h6,
    stored_value]

theorem set_of_reserved (stod : List Char → Except Failure Rat) (s s2 : LLM)
    (p v : List Char) (q : Bool) (hp : reserved p) (h : LLM.set stod s p v q = .ok s2) :
    s2.settings = s.settings := by
  unfold LLM.set at h
  by_cases h1 : p = "system".toList
  · rw [if_pos h1] at h; cases h; rfl
  rw [if_neg h1] at h
  by_cases h2 : p = "temperature".toList
  · rw [if_pos h2] at h
    cases ht : stod v with
    | error e => rw [ht] at h; cases h
    | ok t => rw [ht] at h; cases h; rfl
  rw [if_neg h2] at h
  by_cases h3 : p = "model".toList
  · rw [if_pos h3] at h; cases h; rfl
  rw [if_neg h3] at h
  by_cases h4 : p = "url".toList
  · rw [if_pos h4] at h; cases h; rfl
  rw [if_neg h4] at h
  by_cases h5 : p = "key".toList
  · rw [if_pos h5] at h; cases h; rfl
  rw [if_neg h5] at h
  by_cases h6 : p = "stream".toList
  · rw [if_pos h6] at h
    by_cases h7 : v ≠ "true".toList
    · rw [if_pos h7] at h; cases h
    · rw [if_neg h7] at h; cases h; rfl
  · rcases hp with hp | hp | hp | hp | hp | hp
    exacts [absurd hp h1, absurd hp h2, absurd hp h3, absurd hp h4, absurd hp h5,
      absurd hp h6]

theorem not_mem_keys_before (p old : List Char) (pre post : List (List Char × List Char))
    (h : ((pre ++ (p, old) :: post).map Prod.fst).Nodup) : p ∉ pre.map Prod.fst := by
  intro hmem
  rw [List.map_append, List.map_cons, List.nodup_append] at h
  exact h.2.2 hmem (List.mem_cons_self _ _)

theorem set_replaces (stod : List Char → Except Failure Rat) (s : LLM) (p v old : List Char)
    (q : Bool) (pre post : List (List Char × List Char)) (hp : ¬ reserved p)
    (hs : s.settings = flat_turns (pre ++ (p, old) :: post))
    (hnd : ((pre ++ (p, old) :: post).map Prod.fst).Nodup) :
    LLM.set stod s p v q
      = .ok { s with settings := flat_turns (pre ++ (p, stored_value v q) :: post) } := by
  rw [set_of_not_reserved stod s p v q hp, hs,
    set_scan_hit p old (stored_value v q) post pre (not_mem_keys_before p old pre post hnd)]

theorem set_appends (stod : List Char → Except Failure Rat) (s : LLM) (p v : List Char)
    (q : Bool) (pairs : List (List Char × List Char)) (hp : ¬ reserved p)
    (hs : s.settings = flat_turns pairs) (hk : p ∉ pairs.map Prod.fst) :
    LLM.set stod s p v q
      = .ok { s with settings := flat_turns (pairs ++ [(p, stored_value v q)]) } := by
  rw [set_of_not_reserved stod s p v q hp, hs, set_scan_miss p (stored_value v q) pairs hk,
    flat_turns_concat]
  rfl

theorem set_calls_settings (stod : List Char → Except Failure Rat) :
    ∀ (calls : List (List Char × List Char × Bool)) (s : LLM)
      (pairs : List (List Char × List Char)),
      s.settings = flat_turns pairs → (pairs.map Prod.fst).Nodup →
      (∀ k ∈ pairs.map Prod.fst, ¬ reserved k) →
      ∃ pairs2 : List (List Char × List Char),
        (set_calls stod s calls).settings = flat_turns pairs2 ∧
        pairs2.map Prod.fst = first_insertions (pairs.map Prod.fst) (calls.map Prod.fst) ∧
        (pairs2.map Prod.fst).Nodup ∧ (∀ k ∈ pairs2.map Prod.fst, ¬ reserved k) := by
  intro calls
  induction calls with
  | nil => intro s pairs hs hnd hr; exact ⟨pairs, hs, rfl, hnd, hr⟩
  | cons c cs ih =>
    intro s pairs hs hnd hr
    obtain ⟨p, v, q⟩ := c
    simp only [set_calls, List.map_cons, first_insertions]
    by_cases hp : reserved p
    · rw [if_pos (Or.inl hp)]
      cases hset : LLM.set stod s p v q with
      | error e => exact ih s pairs hs hnd hr
      | ok s2 =>
        exact ih s2 pairs ((set_of_reserved stod s s2 p v q hp hset).trans hs) hnd hr
    · by_cases hk : p ∈ pairs.map Prod.fst
      · rw [if_pos (Or.inr hk)]
        obtain ⟨⟨k, old⟩, hmem, hkp⟩ := List.mem_map.1 hk
        simp only at hkp
        subst hkp
        obtain ⟨pre, post, hsplit⟩ := List.append_of_mem hmem
        subst hsplit
        rw [set_replaces stod s k v old q pre post hp hs hnd]
        have hkeys : (pre ++ (k, stored_value v q) :: post).map Prod.fst
            = (pre ++ (k, old) :: post).map Prod.fst := by simp
        have := ih { s with settings := flat_turns (pre ++ (k, stored_value v q) :: post) }
          (pre ++ (k, stored_value v q) :: post) rfl (by rw [hkeys]; exact hnd)
          (by rw [hkeys]; exact hr)
        rw [hkeys] at this
        exact this
      · have hno : ¬ (reserved p ∨ p ∈ pairs.map Prod.fst) := fun h => h.elim hp hk
        rw [if_neg hno, set_appends stod s p v q pairs hp hs hk]
        have hkeys : (pairs ++ [(p, stored_value v q)]).map Prod.fst
            = pairs.map Prod.fst ++ [p] := by simp
        have := ih { s with settings := flat_turns (pairs ++ [(p, stored_value v q)]) }
          (pairs ++ [(p, stored_value v q)]) rfl
          (by
            rw [hkeys, List.nodup_append]
            refine ⟨hnd, List.nodup_singleton p, ?_⟩
            intro a ha hb
            rw [List.mem_singleton] at hb
            exact hk (hb ▸ ha))
          (by
            rw [hkeys]
            intro a ha
            rcases List.mem_append.1 ha with ha | ha
            · exact hr a ha
            · rw [List.mem_singleton] at ha
              rw [ha]; exact hp)
        rw [hkeys] at this
        exact this

/-- C21: take a provider whose settings are empty (as the constructor leaves them) and apply
any sequence of `set` calls, a call that throws leaving it unchanged.  The settings then
store a list of pairs (key, value) whose keys are pairwise distinct, are never reserved
names, and are exactly the non-reserved property names of the calls in the order of their
first occurrence.  On such a state, for a property `p` that is not reserved: if `p` is a
stored key, `set(p, v, q)` succeeds and replaces the value of that key in place, every other
pair, the number and the order of the keys being unchanged; if `p` is not stored, it
succeeds and appends the pair `(p, v')` at the end; here `v'` is `escape(v)`, wrapped in
double quotes when `q` holds.  Nothing but the settings changes. -/
theorem set_settings_in_place (stod : List Char → Except Failure Rat) (s0 : LLM)
    (calls : List (List Char × List Char × Bool)) (p v : List Char) (q : Bool)
    (h0 : s0.settings = []) (hp : ¬ reserved p) :
    ∃ pairs : List (List Char × List Char),
      (set_calls stod s0 calls).settings = flat_turns pairs ∧
      pairs.map Prod.fst = first_insertions [] (calls.map Prod.fst) ∧
      (pairs.map Prod.fst).Nodup ∧
      (∀ k ∈ pairs.map Prod.fst, ¬ reserved k) ∧
      (∀ pre old post, pairs = pre ++ (p, old) :: post →
        LLM.set stod (set_calls stod s0 calls) p v q
          = .ok { set_calls stod s0 calls with
                  settings := flat_turns (pre ++ (p, stored_value v q) :: post) }) ∧
      (p ∉ pairs.map Prod.fst →
        LLM.set stod (set_calls stod s0 calls) p v q
          = .ok { set_calls stod s0 calls with
                  settings := flat_turns (pairs ++ [(p, stored_value v q)]) }) := by
  obtain ⟨pairs, hs, hkeys, hnd, hr⟩ :=
    set_calls_settings stod calls s0 [] (by rw [h0]; rfl) List.nodup_nil
      (fun k hk => absurd hk (List.not_mem_nil k))
  refine ⟨pairs, hs, hkeys, hnd, hr, ?_, ?_⟩
  · intro pre old post hsplit
    subst hsplit
    exact set_replaces stod _ p v old q pre post hp hs hnd
  · intro hk
    exact set_appends stod _ p v q pairs hp hs hk

theorem set_settings_in_place_witness :
    (LLM.new "u".toList "m".toList "k".toList 0 0).settings = [] ∧
    ¬ reserved "stop".toList ∧
    (set_calls (fun _ => .ok 1) (LLM.new "u".toList "m".toList "k".toList 0 0)
      [("max_tokens".toList, "100".toList, false), ("system".toList, "hi".toList, false),
       ("stop".toList, "a\"b".toList, true), ("stream".toList, "false".toList, false),
       ("max_tokens".toList, "200".toList, false)]).settings
      = ["max_tokens".toList, "200".toList, "stop".toList, "\"a\\\"b\"".toList] ∧
    (LLM.set (fun _ => .ok 1)
      (set_calls (fun _ => .ok 1) (LLM.new "u".toList "m".toList "k".toList 0 0)
        [("max_tokens".toList, "100".toList, false), ("system".toList, "hi".toList, false),
         ("stop".toList, "a\"b".toList, true), ("stream".toList, "false".toList, false),
         ("max_tokens".toList, "200".toList, false)])
      "max_tokens".toList "300".toList false).map (fun s => s.settings)
      = .ok ["max_tokens".toList, "300".toList, "stop".toList, "\"a\\\"b\"".toList] ∧
    ∃ pairs : List (List Char × List Char),
      (set_calls (fun _ => .ok 1) (LLM.new "u".toList "m".toList "k".toList 0 0)
        [("max_tokens".toList, "100".toList, false), ("system".toList, "hi".toList, false),
         ("stop".toList, "a\"b".toList, true), ("stream".toList, "false".toList, false),
         ("max_tokens".toList, "200".toList, false)]).settings = flat_turns pairs ∧
      pairs.map Prod.fst = ["max_tokens".toList, "stop".toList] :=
  ⟨rfl, by decide, by rfl, by rfl,
    (set_settings_in_place (fun _ => .ok 1)
      (LLM.new "u".toList "m".toList "k".toList 0 0)
      [("max_tokens".toList, "100".toList, false), ("system".toList, "hi".toList, false),
       ("stop".toList, "a\"b".toList, true), ("stream".toList, "false".toList, false),
       ("max_tokens".toList, "200".toList, false)]
      "stop".toList "x".toList false rfl (by decide)).imp
      (fun _ h => ⟨h.1, h.2.1.trans (by decide)⟩)⟩

end LLM_impl
